import Mathlib

/-!
# A verification development for `fspopulate`

`fspopulate` (fspopulate.c) populates a directory with files roughly
consistent with a Manta storage dataset.  This file gives a shallow
embedding of the program: the configuration record `fspopulate_t`, the
fill-buffer initialisation (`init_buffer`/`fsp_buf`), the chunked write
loop `populate_file`, and the main population loop `fspopulate`, modelled
over an explicit filesystem state (`FS`) and an oracle for the outcome of
the system calls the program makes (`SysOracle`).  The population loop is
written with an explicit fuel argument so that every definition is
executable; `fspopulate_fuel` is an upper bound on the number of loop
iterations, proved adequate below.
-/

set_option maxRecDepth 4000

namespace FsPop

/-- The `MIN` macro from fspopulate.c line 29, at type `Nat`. -/
def MIN (a b : Nat) : Nat := if a < b then a else b

/-- The `MIN` macro from fspopulate.c line 29, at signed type
(`off_t`/`ssize_t` become `Int`). -/
def MINI (a b : Int) : Int := if a < b then a else b

/-- Value of `sizeof (fsp_buf)`: the global fill buffer `fsp_buf` (line 33) holds
`10 * 1024 * 1024` bytes. -/
def fsp_bufsz : Nat := 10 * 1024 * 1024

/-- Modelled from the spec: `init_buffer` (lines 115-130) calls `srand(1)`
and fills the buffer with successive `(char)rand()` values.  The C
library's `rand` is not part of this repository; the spec only requires a
deterministic pseudo-random generator seeded with a fixed constant, so the
generator state is modelled as a fixed linear congruential sequence with
seed 1. -/
def randStep (s : Nat) : Nat := (1103515245 * s + 12345) % 2147483648

/-- Modelled from the spec: the generator state after `k` draws, starting
from the fixed seed `srand(1)`. -/
def randState : Nat → Nat
  | 0 => 1
  | k + 1 => randStep (randState k)

/-- Modelled from the spec: byte `i` of the fill buffer written by
`init_buffer` — the `(i+1)`-st draw of the seeded generator, truncated to
a byte as `(char)rand()` is. -/
def fsp_buf (i : Nat) : Nat := randState (i + 1) % 256

/-- The configuration record `fspopulate_t` (lines 35-42).  `off_t` and
`int` fields hold the nonnegative counts and byte sizes the program uses,
so they are embedded at type `Nat`. -/
structure fspopulate_t where
  fsp_path : String
  fsp_totsize : Nat
  fsp_nbulk : Nat
  fsp_bulksize : Nat
  fsp_nsubdirs : Nat
  fsp_dryrun : Bool
deriving DecidableEq, Repr

/-- The configuration constructed by `main` (lines 88-95) from the parsed
total size and root path: the hardcoded policy `fsp_nbulk = 768`,
`fsp_bulksize = totsz / 1024`, `fsp_nsubdirs = 256`, no dry run. -/
def mainConfig (totsz : Nat) (path : String) : fspopulate_t :=
  { fsp_path := path
    fsp_totsize := totsz
    fsp_nbulk := 768
    fsp_bulksize := totsz / 1024
    fsp_nsubdirs := 256
    fsp_dryrun := false }

/-- The `%06d` formatting used by the `snprintf` calls (lines 172, 180):
zero-pad to width 6 (wider numbers print in full). -/
def pad6 (n : Nat) : String :=
  String.mk (List.replicate (6 - (toString n).length) '0') ++ toString n

/-- The directory pathname `"%s/dir%06d"` (line 172). -/
def dirPath (root : String) (d : Nat) : String := root ++ "/dir" ++ pad6 d

/-- The file pathname `"%s/dir%06d/file%06d"` (line 180). -/
def filePath (root : String) (d f : Nat) : String :=
  root ++ "/dir" ++ pad6 d ++ "/file" ++ pad6 f

/-- The target filesystem tree under the root: the set of subdirectories
that exist (by directory index), and the regular files that exist, keyed
by (directory index, file index) and carrying their byte contents. -/
structure FS where
  dirs : List Nat
  files : List (Nat × Nat × List Nat)
deriving DecidableEq, Repr

/-- The empty tree (a fresh root). -/
def FS.empty : FS := ⟨[], []⟩

/-- Content of the file at (directory index `d`, file index `f`), if it
exists. -/
def FS.lookup (fs : FS) (d f : Nat) : Option (List Nat) :=
  (fs.files.find? (fun e => e.1 == d && e.2.1 == f)).map (fun e => e.2.2)

/-- The size `st.st_size` as the program reads it: the size of the file, `0` when
looking at a freshly created empty file. -/
def FS.curSize (fs : FS) (d f : Nat) : Nat := ((fs.lookup d f).getD []).length

/-- The `mkdirp` call with `EEXIST` not an error (lines 174-177): ensure directory
`d` exists; an existing directory is left untouched. -/
def FS.mkdirp (fs : FS) (d : Nat) : FS :=
  if d ∈ fs.dirs then fs else { fs with dirs := d :: fs.dirs }

/-- The `open(pathname, O_APPEND | O_WRONLY | O_CREAT, 0666)` call followed by
`fstat` (lines 183-193): create the file empty when it does not exist,
and report its current size.  The open never truncates. -/
def FS.openCreate (fs : FS) (d f : Nat) : Nat × FS :=
  match fs.lookup d f with
  | some c => (c.length, fs)
  | none => (0, { fs with files := (d, f, ([] : List Nat)) :: fs.files })

/-- Effect on the tree of appending `bs` to the file at `(d, f)`
(the `O_APPEND` writes always land at the end of the file). -/
def FS.appendBytes (fs : FS) (d f : Nat) (bs : List Nat) : FS :=
  { fs with
    files := fs.files.map (fun e =>
      if e.1 == d && e.2.1 == f then (e.1, e.2.1, e.2.2 ++ bs) else e) }

/-- Outcome oracle for the system calls made during one run, indexed by
the file counter `bi` of the iteration making the call: whether the
subdirectory `mkdirp` succeeds, whether `open` succeeds, whether `fstat`
succeeds, and the result of the `j`-th `write` call for that file given
the requested byte count (`none` models a `-1` error return, `some r`
models a return of `r` bytes written). -/
structure SysOracle where
  mkdir_ok : Nat → Bool
  open_ok : Nat → Bool
  fstat_ok : Nat → Bool
  write_res : Nat → Nat → Nat → Option Nat

/-- The oracle of a run in which every system call succeeds and every
`write` writes everything it was asked to write. -/
def sysOK : SysOracle :=
  { mkdir_ok := fun _ => true
    open_ok := fun _ => true
    fstat_ok := fun _ => true
    write_res := fun _ _ n => some n }

/-- Result of `populate_file` (lines 223-242): normal return 0, error
return -1 on a failed `write`, or the `assert(result != 0)` firing on a
zero-byte write result. -/
inductive PfRes
  | ok
  | werr
  | wzero
deriving DecidableEq, Repr

/-- The write loop of `populate_file` (lines 228-239): while
`nwritten < nbytes`, request `ntowrite = MIN(nbytes - nwritten, sizeof
fsp_buf)` bytes; a `-1` result returns the error, a `0` result trips the
assertion, and otherwise `nwritten` advances by the result.  Returns the
outcome together with the list of completed `write` calls as
(requested, written) pairs.  The fuel argument only bounds the number of
iterations; `populate_file` passes enough fuel for every possible oracle
(each completed call writes at least one byte). -/
def populate_file_go (w : Nat → Nat → Option Nat) :
    Nat → Nat → Int → Int → PfRes × List (Nat × Nat)
  | 0, _, _, _ => (.ok, [])
  | fuel + 1, ci, nwritten, nbytes =>
    if nwritten < nbytes then
      match w ci (MINI (nbytes - nwritten) (fsp_bufsz : Int)).toNat with
      | none => (.werr, [])
      | some r =>
        if r = 0 then (.wzero, [])
        else
          ((populate_file_go w fuel (ci + 1) (nwritten + r) nbytes).1,
            ((MINI (nbytes - nwritten) (fsp_bufsz : Int)).toNat, r) ::
              (populate_file_go w fuel (ci + 1) (nwritten + r) nbytes).2)
    else (.ok, [])

/-- The call `populate_file(fd, nbytes)` (lines 223-242), with the `write` results
supplied by the oracle `w`. -/
def populate_file (w : Nat → Nat → Option Nat) (nbytes : Int) :
    PfRes × List (Nat × Nat) :=
  populate_file_go w (nbytes.toNat + 1) 0 0 nbytes

/-- The sequence of requested chunk sizes when all writes complete in
full: `MIN(remaining, sizeof fsp_buf)` repeatedly until `n` bytes are
covered. -/
def chunkListGo : Nat → Nat → List Nat
  | 0, _ => []
  | fuel + 1, n =>
    if 0 < n then MIN n fsp_bufsz :: chunkListGo fuel (n - MIN n fsp_bufsz)
    else []

/-- Chunk decomposition of `n` bytes into full-throughput `write` calls. -/
def chunkList (n : Nat) : List Nat := chunkListGo (n + 1) n

/-- The bytes transferred by one `write(fd, fsp_buf, c)` call: the first
`c` bytes of the fill buffer. -/
def chunkBytes (buf : Nat → Nat) (c : Nat) : List Nat := (List.range c).map buf

/-- The bytes appended to a file by a fully successful `populate_file`
call for `n` bytes: the chunks' bytes, concatenated. -/
def fillContent (buf : Nat → Nat) (n : Nat) : List Nat :=
  ((chunkList n).map (chunkBytes buf)).flatten

/-- Result of the whole run as `fspopulate` (lines 138-215) reports it:
return 0, return -1 (which `main` maps to exit code 1), or the process
aborting inside `assert`. -/
inductive RunRes
  | ok
  | fail
  | aborted
deriving DecidableEq, Repr

/-- The exit code `main` (line 99) produces from `fspopulate`'s return
value: `rv == 0 ? EXIT_SUCCESS : EXIT_FAILURE`.  An `assert` abort
terminates the process without returning to `main`. -/
def mainExit : RunRes → Option Nat
  | .ok => some 0
  | .fail => some 1
  | .aborted => none

/-- Externally visible actions of a run: a `mkdirp` attempt on a
subdirectory, a file `open`, and a completed `write` call (with requested
and actually written byte counts). -/
inductive Event
  | mkdirA (path : String)
  | openF (path : String)
  | writeC (path : String) (req res : Nat)
deriving DecidableEq, Repr

/-- Whether an event is a completed `write` call. -/
def Event.isWrite : Event → Bool
  | .writeC _ _ _ => true
  | _ => false

/-- Whether an event is a subdirectory `mkdirp` attempt. -/
def Event.isMkdir : Event → Bool
  | .mkdirA _ => true
  | _ => false

/-- The pathname opened by an `open` event. -/
def Event.openPath : Event → Option String
  | .openF p => some p
  | _ => none

/-- The number of bytes a `write` event reports written. -/
def Event.resBytes : Event → Nat
  | .writeC _ _ r => r
  | _ => 0

/-- Outcome of one iteration of the population loop: either the run stops
(with a result, the tree as it stands, and the iteration's events), or
control returns to the top of the loop with updated state. -/
inductive IterOut
  | stop (r : RunRes) (fs : FS) (evs : List Event)
  | next (fs : FS) (evs : List Event) (tw di bi : Nat)

/-- One iteration of the population loop body (lines 166-212): attempt
the subdirectory `mkdirp` when `bi < fsp_nsubdirs`; format the file path
and advance `di`; `open`/`fstat` the file; compute
`expectedsz = MIN(bi < fsp_nbulk ? fsp_bulksize : 10MiB, fsp_totsize -
totwritten)`; call `populate_file` for `expectedsz - st.st_size`; and on
success account `totwritten += expectedsz` and `bi++`.  Any failing call
stops the run at once. -/
def fspopulate_iter (buf : Nat → Nat) (sys : SysOracle) (fsp : fspopulate_t)
    (fs : FS) (tw di bi : Nat) : IterOut :=
  if bi < fsp.fsp_nsubdirs ∧ sys.mkdir_ok bi = false then
    .stop .fail fs [.mkdirA (dirPath fsp.fsp_path di)]
  else
    let fs1 := if bi < fsp.fsp_nsubdirs then fs.mkdirp di else fs
    let ev1 : List Event :=
      if bi < fsp.fsp_nsubdirs then [.mkdirA (dirPath fsp.fsp_path di)] else []
    if sys.open_ok bi = false then
      .stop .fail fs1 (ev1 ++ [.openF (filePath fsp.fsp_path di bi)])
    else
      let cur := (fs1.openCreate di bi).1
      let fs2 := (fs1.openCreate di bi).2
      let ev2 := ev1 ++ [Event.openF (filePath fsp.fsp_path di bi)]
      if sys.fstat_ok bi = false then
        .stop .fail fs2 ev2
      else
        let expectedsz :=
          MIN (if bi < fsp.fsp_nbulk then fsp.fsp_bulksize else 10 * 1024 * 1024)
            (fsp.fsp_totsize - tw)
        let pf := populate_file (sys.write_res bi) ((expectedsz : Int) - (cur : Int))
        let fs3 := fs2.appendBytes di bi ((pf.2.map (fun c => chunkBytes buf c.2)).flatten)
        let ev3 := ev2 ++ pf.2.map (fun c =>
          Event.writeC (filePath fsp.fsp_path di bi) c.1 c.2)
        match pf.1 with
        | .ok => .next fs3 ev3 (tw + expectedsz) ((di + 1) % fsp.fsp_nsubdirs) (bi + 1)
        | .werr => .stop .fail fs3 ev3
        | .wzero => .stop .aborted fs3 ev3

/-- The population loop of `fspopulate` (lines 163-212): starting from
`totwritten = 0, di = 0, bi = 0`, iterate while
`totwritten < fsp_totsize`.  Returns the run result, the final tree, the
event trace, and the final `totwritten`.  The fuel argument bounds the
number of iterations; `fspopulate` passes `fspopulate_fuel`, proved
adequate below. -/
def fspopulate_go (buf : Nat → Nat) (sys : SysOracle) (fsp : fspopulate_t) :
    Nat → FS → Nat → Nat → Nat → RunRes × FS × List Event × Nat
  | 0, fs, tw, _, _ => (.ok, fs, [], tw)
  | fuel + 1, fs, tw, di, bi =>
    if tw < fsp.fsp_totsize then
      match fspopulate_iter buf sys fsp fs tw di bi with
      | .stop r fs' evs => (r, fs', evs, tw)
      | .next fs' evs tw' di' bi' =>
        ((fspopulate_go buf sys fsp fuel fs' tw' di' bi').1,
          (fspopulate_go buf sys fsp fuel fs' tw' di' bi').2.1,
          evs ++ (fspopulate_go buf sys fsp fuel fs' tw' di' bi').2.2.1,
          (fspopulate_go buf sys fsp fuel fs' tw' di' bi').2.2.2)
    else (.ok, fs, [], tw)

/-- Upper bound on the iteration count of the population loop: each
iteration either advances `totwritten` by at least one byte or (only
while `bi < fsp_nbulk` with a zero bulk size) advances `bi`. -/
def fspopulate_fuel (fsp : fspopulate_t) : Nat :=
  fsp.fsp_totsize + fsp.fsp_nbulk + 1

/-- The run `fspopulate(fsp)` (lines 138-215) acting on the tree `fs` under the
configured root, with system call outcomes drawn from `sys`: a dry run
does nothing, otherwise the population loop runs from zeroed counters. -/
def fspopulate (buf : Nat → Nat) (sys : SysOracle) (fsp : fspopulate_t)
    (fs : FS) : RunRes × FS × List Event × Nat :=
  if fsp.fsp_dryrun then (.ok, fs, [], 0)
  else fspopulate_go buf sys fsp (fspopulate_fuel fsp) fs 0 0 0

/-- One entry of the deterministic plan: whether this iteration attempts
a subdirectory `mkdirp`, the directory index, the file index, and the
expected size `expectedsz` computed for the file. -/
structure PlanEnt where
  pmk : Bool
  pdi : Nat
  pbi : Nat
  psz : Nat
deriving DecidableEq, Repr

/-- The nominal (unclipped) size of file `bi`:
`bi < fsp_nbulk ? fsp_bulksize : 10 * 1024 * 1024` (lines 195-196). -/
def nominalSz (fsp : fspopulate_t) (bi : Nat) : Nat :=
  if bi < fsp.fsp_nbulk then fsp.fsp_bulksize else 10 * 1024 * 1024

/-- The size `expectedsz` as computed on lines 195-197: the nominal size clipped
to the bytes still to be planned. -/
def expectedSz (fsp : fspopulate_t) (tw bi : Nat) : Nat :=
  MIN (nominalSz fsp bi) (fsp.fsp_totsize - tw)

/-- The plan the loop follows from state `(totwritten, di, bi)`: the
sequence of (mkdir-attempt?, directory index, file index, expected size)
tuples, which depends only on the configuration and the counters, never
on the tree. -/
def planFrom (fsp : fspopulate_t) : Nat → Nat → Nat → Nat → List PlanEnt
  | 0, _, _, _ => []
  | fuel + 1, tw, di, bi =>
    if tw < fsp.fsp_totsize then
      ⟨decide (bi < fsp.fsp_nsubdirs), di, bi, expectedSz fsp tw bi⟩ ::
        planFrom fsp fuel (tw + expectedSz fsp tw bi) ((di + 1) % fsp.fsp_nsubdirs) (bi + 1)
    else []

/-- The full plan of a run of `fspopulate`. -/
def thePlan (fsp : fspopulate_t) : List PlanEnt :=
  planFrom fsp (fspopulate_fuel fsp) 0 0 0

/-- The shortfall of the file handled at state `(tw, di, bi)`:
`expectedsz - st.st_size` (line 198). -/
def shortfall (fsp : fspopulate_t) (fs : FS) (tw di bi : Nat) : Int :=
  (expectedSz fsp tw bi : Int) - (fs.curSize di bi : Int)

/-- The tree after one successful iteration of the population loop. -/
def stepFS (buf : Nat → Nat) (fsp : fspopulate_t) (fs : FS) (tw di bi : Nat) : FS :=
  (((if bi < fsp.fsp_nsubdirs then fs.mkdirp di else fs).openCreate di bi).2).appendBytes
    di bi (fillContent buf (shortfall fsp fs tw di bi).toNat)

/-- The events of one successful iteration of the population loop. -/
def stepEvs (fsp : fspopulate_t) (fs : FS) (tw di bi : Nat) : List Event :=
  (if bi < fsp.fsp_nsubdirs then [Event.mkdirA (dirPath fsp.fsp_path di)] else []) ++
    Event.openF (filePath fsp.fsp_path di bi) ::
      (chunkList (shortfall fsp fs tw di bi).toNat).map (fun c =>
        Event.writeC (filePath fsp.fsp_path di bi) c c)

/-- The tree after this iteration's write phase, for an arbitrary oracle:
the completed `write` calls' bytes are appended to the file. -/
def stepFSw (buf : Nat → Nat) (sys : SysOracle) (fsp : fspopulate_t)
    (fs : FS) (tw di bi : Nat) : FS :=
  (((if bi < fsp.fsp_nsubdirs then fs.mkdirp di else fs).openCreate di bi).2).appendBytes
    di bi
    ((((populate_file (sys.write_res bi) (shortfall fsp fs tw di bi)).2).map
      (fun c => chunkBytes buf c.2)).flatten)

/-- The events of this iteration up to and including its write phase, for
an arbitrary oracle. -/
def stepEvsw (sys : SysOracle) (fsp : fspopulate_t) (fs : FS) (tw di bi : Nat) :
    List Event :=
  (if bi < fsp.fsp_nsubdirs then [Event.mkdirA (dirPath fsp.fsp_path di)] else []) ++
    Event.openF (filePath fsp.fsp_path di bi) ::
      ((populate_file (sys.write_res bi) (shortfall fsp fs tw di bi)).2).map
        (fun c => Event.writeC (filePath fsp.fsp_path di bi) c.1 c.2)

/-! ## Arithmetic facts about the `MIN` macro and chunk decomposition -/

theorem MIN_le_left (a b : Nat) : MIN a b ≤ a := by
  unfold MIN; split <;> omega

theorem MIN_le_right (a b : Nat) : MIN a b ≤ b := by
  unfold MIN; split <;> omega

theorem MINI_toNat (a : Int) (b : Nat) (h : 0 ≤ a) :
    (MINI a (b : Int)).toNat = MIN a.toNat b := by
  unfold MINI MIN; split <;> split <;> omega

theorem MIN_pos (a b : Nat) (ha : 0 < a) (hb : 0 < b) : 0 < MIN a b := by
  unfold MIN; split <;> omega

theorem chunkListGo_stable (fuel : Nat) : ∀ fuel' n, n < fuel → n < fuel' →
    chunkListGo fuel n = chunkListGo fuel' n := by
  induction fuel with
  | zero => intro _ n h _; omega
  | succ f ih =>
    intro fuel' n h h'
    cases fuel' with
    | zero => omega
    | succ f' =>
      unfold chunkListGo
      split
      · rename_i h0
        have hm : 0 < MIN n fsp_bufsz := MIN_pos _ _ h0 (by unfold fsp_bufsz; omega)
        have hle := MIN_le_left n fsp_bufsz
        rw [ih f' (n - MIN n fsp_bufsz) (by omega) (by omega)]
      · rfl

theorem chunkList_pos (n : Nat) (h : 0 < n) :
    chunkList n = MIN n fsp_bufsz :: chunkList (n - MIN n fsp_bufsz) := by
  have hm : 0 < MIN n fsp_bufsz := MIN_pos _ _ h (by unfold fsp_bufsz; omega)
  have hle := MIN_le_left n fsp_bufsz
  unfold chunkList
  conv_lhs => unfold chunkListGo
  rw [if_pos h,
    chunkListGo_stable n (n - MIN n fsp_bufsz + 1) (n - MIN n fsp_bufsz)
      (by omega) (by omega)]

theorem chunkList_zero : chunkList 0 = [] := by
  unfold chunkList chunkListGo
  simp

theorem chunkList_eq_nil_iff (n : Nat) : chunkList n = [] ↔ n = 0 := by
  constructor
  · intro h
    by_contra hn
    rw [chunkList_pos n (by omega)] at h
    exact List.cons_ne_nil _ _ h
  · intro h; subst h; exact chunkList_zero

theorem chunkList_sum (n : Nat) : (chunkList n).sum = n := by
  induction n using Nat.strong_induction_on with
  | _ n ih =>
    rcases Nat.eq_zero_or_pos n with h | h
    · subst h; rw [chunkList_zero]; rfl
    · have hm : 0 < MIN n fsp_bufsz := MIN_pos _ _ h (by unfold fsp_bufsz; omega)
      have hle := MIN_le_left n fsp_bufsz
      rw [chunkList_pos n h, List.sum_cons, ih (n - MIN n fsp_bufsz) (by omega)]
      omega

theorem chunkBytes_length (buf : Nat → Nat) (c : Nat) :
    (chunkBytes buf c).length = c := by
  unfold chunkBytes; simp

theorem fillContent_length (buf : Nat → Nat) (n : Nat) :
    (fillContent buf n).length = n := by
  unfold fillContent
  rw [List.length_flatten, List.map_map]
  have : ((chunkList n).map ((fun l => List.length l) ∘ chunkBytes buf)) = chunkList n := by
    simp only [Function.comp_def]
    rw [List.map_congr_left (fun c _ => chunkBytes_length buf c)]
    exact List.map_id' (chunkList n)
  rw [this, chunkList_sum]

theorem fillContent_zero (buf : Nat → Nat) : fillContent buf 0 = [] := by
  unfold fillContent
  rw [chunkList_zero]
  rfl

/-! ## The write loop under the all-succeeding oracle -/

theorem populate_file_go_sysOK (fuel : Nat) :
    ∀ ci nw nb, populate_file_go (fun _ n => some n) fuel ci nw nb =
      (PfRes.ok, (chunkListGo fuel (nb - nw).toNat).map (fun c => (c, c))) := by
  induction fuel with
  | zero => intro ci nw nb; rfl
  | succ f ih =>
    intro ci nw nb
    by_cases h : nw < nb
    · have h0 : (0 : Int) ≤ nb - nw := by omega
      have hpos : 0 < (nb - nw).toNat := by omega
      have hmne : ¬ MIN (nb - nw).toNat fsp_bufsz = 0 := by
        have := MIN_pos (nb - nw).toNat fsp_bufsz hpos (by unfold fsp_bufsz; omega)
        omega
      unfold populate_file_go chunkListGo
      rw [if_pos h, if_pos hpos, MINI_toNat _ _ h0]
      simp only [hmne, if_false, ih, List.map_cons]
      have harg : (nb - (nw + (MIN (nb - nw).toNat fsp_bufsz : Nat))).toNat =
          (nb - nw).toNat - MIN (nb - nw).toNat fsp_bufsz := by
        omega
      rw [harg]
    · unfold populate_file_go chunkListGo
      rw [if_neg h, if_neg (by omega : ¬ 0 < (nb - nw).toNat)]
      rfl

theorem populate_file_sysOK (nbytes : Int) :
    populate_file (fun _ n => some n) nbytes =
      (PfRes.ok, (chunkList nbytes.toNat).map (fun c => (c, c))) := by
  unfold populate_file chunkList
  rw [populate_file_go_sysOK]
  have : (nbytes - 0).toNat = nbytes.toNat := by omega
  rw [this]

/-! ## Filesystem model lemmas -/

theorem FS.mkdirp_files (fs : FS) (d : Nat) : (fs.mkdirp d).files = fs.files := by
  unfold FS.mkdirp; split <;> rfl

theorem FS.mem_mkdirp_dirs (fs : FS) (d x : Nat) :
    x ∈ (fs.mkdirp d).dirs ↔ x = d ∨ x ∈ fs.dirs := by
  unfold FS.mkdirp
  split
  · rename_i h
    constructor
    · exact fun hx => Or.inr hx
    · rintro (rfl | hx)
      · exact h
      · exact hx
  · exact List.mem_cons

theorem FS.mkdirp_of_mem (fs : FS) (d : Nat) (h : d ∈ fs.dirs) : fs.mkdirp d = fs := by
  unfold FS.mkdirp; rw [if_pos h]

theorem FS.mkdirp_lookup (fs : FS) (d x y : Nat) :
    (fs.mkdirp d).lookup x y = fs.lookup x y := by
  unfold FS.lookup; rw [FS.mkdirp_files]

theorem FS.mkdirp_curSize (fs : FS) (d x y : Nat) :
    (fs.mkdirp d).curSize x y = fs.curSize x y := by
  unfold FS.curSize; rw [FS.mkdirp_lookup]

theorem FS.openCreate_fst (fs : FS) (d f : Nat) :
    (fs.openCreate d f).1 = fs.curSize d f := by
  unfold FS.openCreate FS.curSize
  cases h : fs.lookup d f <;> simp

theorem FS.openCreate_dirs (fs : FS) (d f : Nat) :
    (fs.openCreate d f).2.dirs = fs.dirs := by
  unfold FS.openCreate
  cases h : fs.lookup d f <;> rfl

theorem FS.openCreate_lookup_self (fs : FS) (d f : Nat) :
    (fs.openCreate d f).2.lookup d f = some ((fs.lookup d f).getD []) := by
  unfold FS.openCreate
  cases h : fs.lookup d f with
  | some c => simpa using h
  | none =>
    simp only [Option.getD_none]
    unfold FS.lookup
    rw [List.find?_cons_of_pos _ (by simp)]
    rfl

theorem FS.openCreate_lookup_other (fs : FS) (d f d' f' : Nat)
    (h : ¬ (d' = d ∧ f' = f)) :
    (fs.openCreate d f).2.lookup d' f' = fs.lookup d' f' := by
  unfold FS.openCreate
  cases hl : fs.lookup d f with
  | some c => rfl
  | none =>
    unfold FS.lookup
    rw [List.find?_cons_of_neg _ (by simp; omega)]

theorem FS.appendBytes_dirs (fs : FS) (d f : Nat) (bs : List Nat) :
    (fs.appendBytes d f bs).dirs = fs.dirs := rfl

theorem findKey_map_append (d f d' f' : Nat) (bs : List Nat) :
    ∀ l : List (Nat × Nat × List Nat),
      (l.map (fun e => if e.1 == d && e.2.1 == f then (e.1, e.2.1, e.2.2 ++ bs) else e)).find?
          (fun e => e.1 == d' && e.2.1 == f') =
        if d' = d ∧ f' = f then
          (l.find? (fun e => e.1 == d' && e.2.1 == f')).map
            (fun e => (e.1, e.2.1, e.2.2 ++ bs))
        else l.find? (fun e => e.1 == d' && e.2.1 == f')
  | [] => by split <;> rfl
  | a :: l => by
    by_cases hk : a.1 = d' ∧ a.2.1 = f'
    · by_cases hu : d' = d ∧ f' = f
      · have h1 : (a.1 == d && a.2.1 == f) = true := by
          simp [hk.1, hk.2, hu.1, hu.2]
        simp only [List.map_cons, h1, if_true]
        rw [List.find?_cons_of_pos _ (by simp [hk.1, hk.2]),
          List.find?_cons_of_pos _ (by simp [hk.1, hk.2]), if_pos hu]
        rfl
      · have h1 : (a.1 == d && a.2.1 == f) = false := by
          rcases Decidable.not_and_iff_or_not.mp hu with h | h <;>
            simp [hk.1, hk.2] <;> omega
        simp only [List.map_cons, h1, Bool.false_eq_true, if_false]
        rw [List.find?_cons_of_pos _ (by simp [hk.1, hk.2]),
          List.find?_cons_of_pos _ (by simp [hk.1, hk.2]), if_neg hu]
    · have h2 : (a.1 == d' && a.2.1 == f') = false := by
        rcases Decidable.not_and_iff_or_not.mp hk with h | h <;> simp <;> omega
      by_cases hm : (a.1 == d && a.2.1 == f) = true
      · have hm2 : ((a.1, a.2.1, a.2.2 ++ bs).1 == d' && (a.1, a.2.1, a.2.2 ++ bs).2.1 == f') = false := h2
        simp only [List.map_cons, hm, if_true]
        rw [List.find?_cons_of_neg _ (by simp_all), List.find?_cons_of_neg _ (by simp_all)]
        exact findKey_map_append d f d' f' bs l
      · simp only [List.map_cons, hm, if_false]
        rw [List.find?_cons_of_neg _ (by simp_all), List.find?_cons_of_neg _ (by simp_all)]
        exact findKey_map_append d f d' f' bs l

theorem FS.appendBytes_lookup (fs : FS) (d f d' f' : Nat) (bs : List Nat) :
    (fs.appendBytes d f bs).lookup d' f' =
      if d' = d ∧ f' = f then (fs.lookup d' f').map (fun c => c ++ bs)
      else fs.lookup d' f' := by
  unfold FS.appendBytes FS.lookup
  rw [findKey_map_append]
  split
  · cases List.find? (fun e => e.1 == d' && e.2.1 == f') fs.files <;> rfl
  · rfl

theorem FS.appendBytes_nil (fs : FS) (d f : Nat) : fs.appendBytes d f [] = fs := by
  unfold FS.appendBytes
  cases fs with
  | mk ds l =>
    simp only [FS.mk.injEq, and_true, true_and]
    induction l with
    | nil => rfl
    | cons a l ih =>
      simp only [List.map_cons, ih]
      split <;> simp

/-! ## One iteration of the population loop under the all-succeeding oracle -/

theorem fspopulate_iter_sysOK (buf : Nat → Nat) (fsp : fspopulate_t)
    (fs : FS) (tw di bi : Nat) :
    fspopulate_iter buf sysOK fsp fs tw di bi =
      .next (stepFS buf fsp fs tw di bi) (stepEvs fsp fs tw di bi)
        (tw + expectedSz fsp tw bi) ((di + 1) % fsp.fsp_nsubdirs) (bi + 1) := by
  have hcur : ((if bi < fsp.fsp_nsubdirs then fs.mkdirp di else fs).openCreate di bi).1 =
      fs.curSize di bi := by
    split
    · rw [FS.openCreate_fst, FS.mkdirp_curSize]
    · rw [FS.openCreate_fst]
  unfold fspopulate_iter
  simp only [sysOK, Bool.true_eq_false, and_false, if_false, ite_false, if_neg,
    not_false_eq_true, populate_file_sysOK, List.map_map, hcur]
  unfold stepFS stepEvs shortfall expectedSz nominalSz
  simp only [hcur, Function.comp_def, fillContent]
  have hcb : (chunkBytes buf) = fun x => List.map buf (List.range x) := rfl
  rw [hcb]
  simp [chunkBytes, List.singleton_append]

/-- Unfolding the population loop one iteration under the all-succeeding
oracle. -/
theorem fspopulate_go_succ_sysOK (buf : Nat → Nat) (fsp : fspopulate_t)
    (fuel : Nat) (fs : FS) (tw di bi : Nat) (h : tw < fsp.fsp_totsize) :
    fspopulate_go buf sysOK fsp (fuel + 1) fs tw di bi =
      ((fspopulate_go buf sysOK fsp fuel (stepFS buf fsp fs tw di bi)
          (tw + expectedSz fsp tw bi) ((di + 1) % fsp.fsp_nsubdirs) (bi + 1)).1,
        (fspopulate_go buf sysOK fsp fuel (stepFS buf fsp fs tw di bi)
          (tw + expectedSz fsp tw bi) ((di + 1) % fsp.fsp_nsubdirs) (bi + 1)).2.1,
        stepEvs fsp fs tw di bi ++
          (fspopulate_go buf sysOK fsp fuel (stepFS buf fsp fs tw di bi)
            (tw + expectedSz fsp tw bi) ((di + 1) % fsp.fsp_nsubdirs) (bi + 1)).2.2.1,
        (fspopulate_go buf sysOK fsp fuel (stepFS buf fsp fs tw di bi)
          (tw + expectedSz fsp tw bi) ((di + 1) % fsp.fsp_nsubdirs) (bi + 1)).2.2.2) := by
  conv_lhs => unfold fspopulate_go
  rw [if_pos h, fspopulate_iter_sysOK]

/-- The loop exits immediately when `totwritten` has reached the total. -/
theorem fspopulate_go_exit (buf : Nat → Nat) (sys : SysOracle) (fsp : fspopulate_t)
    (fuel : Nat) (fs : FS) (tw di bi : Nat) (h : ¬ tw < fsp.fsp_totsize) :
    fspopulate_go buf sys fsp (fuel + 1) fs tw di bi = (.ok, fs, [], tw) := by
  unfold fspopulate_go
  rw [if_neg h]

theorem planFrom_cons (fsp : fspopulate_t) (fuel : Nat) (tw di bi : Nat)
    (h : tw < fsp.fsp_totsize) :
    planFrom fsp (fuel + 1) tw di bi =
      ⟨decide (bi < fsp.fsp_nsubdirs), di, bi, expectedSz fsp tw bi⟩ ::
        planFrom fsp fuel (tw + expectedSz fsp tw bi)
          ((di + 1) % fsp.fsp_nsubdirs) (bi + 1) := by
  conv_lhs => unfold planFrom
  rw [if_pos h]

theorem planFrom_exit (fsp : fspopulate_t) (fuel : Nat) (tw di bi : Nat)
    (h : ¬ tw < fsp.fsp_totsize) :
    planFrom fsp (fuel + 1) tw di bi = [] := by
  conv_lhs => unfold planFrom
  rw [if_neg h]

/-- Each loop iteration strictly decreases the termination measure
`(fsp_totsize - totwritten) + (fsp_nbulk - bi)`. -/
theorem expectedSz_measure (fsp : fspopulate_t) (tw bi : Nat)
    (h : tw < fsp.fsp_totsize) :
    fsp.fsp_totsize - (tw + expectedSz fsp tw bi) + (fsp.fsp_nbulk - (bi + 1)) <
      fsp.fsp_totsize - tw + (fsp.fsp_nbulk - bi) := by
  unfold expectedSz nominalSz
  by_cases h1 : bi < fsp.fsp_nbulk <;>
    simp only [h1, if_true, if_false] <;> unfold MIN <;> split <;> omega

theorem expectedSz_le (fsp : fspopulate_t) (tw bi : Nat) :
    expectedSz fsp tw bi ≤ fsp.fsp_totsize - tw :=
  MIN_le_right _ _

theorem FS.openCreate_some (fs : FS) (d f : Nat) (c : List Nat)
    (h : fs.lookup d f = some c) : fs.openCreate d f = (c.length, fs) := by
  unfold FS.openCreate
  rw [h]

theorem FS.openCreate_none (fs : FS) (d f : Nat) (h : fs.lookup d f = none) :
    fs.openCreate d f = (0, { fs with files := (d, f, ([] : List Nat)) :: fs.files }) := by
  unfold FS.openCreate
  rw [h]

theorem FS.lookup_eq_none_of_fresh (fs : FS) (di bi : Nat)
    (hfresh : ∀ e ∈ fs.files, e.2.1 < bi) : fs.lookup di bi = none := by
  unfold FS.lookup
  have : fs.files.find? (fun e => e.1 == di && e.2.1 == bi) = none := by
    rw [List.find?_eq_none]
    intro e he
    have := hfresh e he
    simp only [Bool.and_eq_true, beq_iff_eq, not_and]
    intro _
    omega
  rw [this]
  rfl

/-- The iteration's tree effect on the file it handles: the old content
(empty for a fresh file) is kept and the shortfall's fill bytes are
appended after it. -/
theorem stepFS_lookup_self (buf : Nat → Nat) (fsp : fspopulate_t)
    (fs : FS) (tw di bi : Nat) :
    (stepFS buf fsp fs tw di bi).lookup di bi =
      some (((fs.lookup di bi).getD []) ++
        fillContent buf (shortfall fsp fs tw di bi).toNat) := by
  unfold stepFS
  rw [FS.appendBytes_lookup, if_pos ⟨rfl, rfl⟩, FS.openCreate_lookup_self]
  have h1 : (if bi < fsp.fsp_nsubdirs then fs.mkdirp di else fs).lookup di bi =
      fs.lookup di bi := by
    split
    · rw [FS.mkdirp_lookup]
    · rfl
  rw [h1]
  rfl

/-- The iteration's tree effect elsewhere: no other file is touched. -/
theorem stepFS_lookup_other (buf : Nat → Nat) (fsp : fspopulate_t)
    (fs : FS) (tw di bi d f : Nat) (h : ¬ (d = di ∧ f = bi)) :
    (stepFS buf fsp fs tw di bi).lookup d f = fs.lookup d f := by
  unfold stepFS
  rw [FS.appendBytes_lookup, if_neg h, FS.openCreate_lookup_other _ _ _ _ _ h]
  split
  · rw [FS.mkdirp_lookup]
  · rfl

theorem stepFS_dirs (buf : Nat → Nat) (fsp : fspopulate_t)
    (fs : FS) (tw di bi : Nat) :
    (stepFS buf fsp fs tw di bi).dirs =
      (if bi < fsp.fsp_nsubdirs then fs.mkdirp di else fs).dirs := by
  unfold stepFS
  rw [FS.appendBytes_dirs, FS.openCreate_dirs]

/-- On a tree whose files all predate this iteration's file index, the
iteration creates the file fresh and writes exactly its expected size. -/
theorem stepFS_files_fresh (buf : Nat → Nat) (fsp : fspopulate_t)
    (fs : FS) (tw di bi : Nat) (hfresh : ∀ e ∈ fs.files, e.2.1 < bi) :
    (stepFS buf fsp fs tw di bi).files =
      (di, bi, fillContent buf (expectedSz fsp tw bi)) :: fs.files := by
  have hnone := FS.lookup_eq_none_of_fresh fs di bi hfresh
  have hcur : fs.curSize di bi = 0 := by
    unfold FS.curSize; rw [hnone]; rfl
  have hsh : (shortfall fsp fs tw di bi).toNat = expectedSz fsp tw bi := by
    unfold shortfall; rw [hcur]; omega
  have hfiles1 : (if bi < fsp.fsp_nsubdirs then fs.mkdirp di else fs).files = fs.files := by
    split
    · rw [FS.mkdirp_files]
    · rfl
  have hlk1 : (if bi < fsp.fsp_nsubdirs then fs.mkdirp di else fs).lookup di bi = none := by
    split
    · rw [FS.mkdirp_lookup]; exact hnone
    · exact hnone
  unfold stepFS
  rw [hsh, FS.openCreate_none _ _ _ hlk1]
  unfold FS.appendBytes
  simp only [List.map_cons, beq_self_eq_true, Bool.and_self, if_true, List.nil_append,
    hfiles1]
  have : fs.files.map (fun e =>
      if e.1 == di && e.2.1 == bi then
        (e.1, e.2.1, e.2.2 ++ fillContent buf (expectedSz fsp tw bi)) else e) = fs.files := by
    rw [List.map_congr_left ?_]
    · exact List.map_id' fs.files
    · intro e he
      have := hfresh e he
      have hb : (e.1 == di && e.2.1 == bi) = false := by
        simp only [Bool.and_eq_false_iff, beq_eq_false_iff_ne, ne_eq]
        right
        omega
      rw [hb]
      simp
  rw [this]

/-- When the planned file already exists with at least its expected size
and (when a mkdirp is due) the directory already exists, the iteration
leaves the tree completely unchanged and the shortfall is not positive. -/
theorem stepFS_noop (buf : Nat → Nat) (fsp : fspopulate_t)
    (fs : FS) (tw di bi : Nat) (c : List Nat)
    (hmk : bi < fsp.fsp_nsubdirs → di ∈ fs.dirs)
    (hc : fs.lookup di bi = some c) (hsz : expectedSz fsp tw bi ≤ c.length) :
    stepFS buf fsp fs tw di bi = fs ∧ (shortfall fsp fs tw di bi).toNat = 0 := by
  have hcur : fs.curSize di bi = c.length := by
    unfold FS.curSize; rw [hc]; rfl
  have hsh : (shortfall fsp fs tw di bi).toNat = 0 := by
    unfold shortfall; rw [hcur]; omega
  refine ⟨?_, hsh⟩
  unfold stepFS
  rw [hsh, fillContent_zero, FS.appendBytes_nil]
  have h1 : (if bi < fsp.fsp_nsubdirs then fs.mkdirp di else fs) = fs := by
    split
    · next hb => exact FS.mkdirp_of_mem fs di (hmk hb)
    · rfl
  rw [h1, FS.openCreate_some fs di bi c hc]

/-! ## Projection forms of the loop unfolding -/

theorem go_res_succ_sysOK (buf : Nat → Nat) (fsp : fspopulate_t)
    (fuel : Nat) (fs : FS) (tw di bi : Nat) (h : tw < fsp.fsp_totsize) :
    (fspopulate_go buf sysOK fsp (fuel + 1) fs tw di bi).1 =
      (fspopulate_go buf sysOK fsp fuel (stepFS buf fsp fs tw di bi)
        (tw + expectedSz fsp tw bi) ((di + 1) % fsp.fsp_nsubdirs) (bi + 1)).1 := by
  rw [fspopulate_go_succ_sysOK buf fsp fuel fs tw di bi h]

theorem go_fs_succ_sysOK (buf : Nat → Nat) (fsp : fspopulate_t)
    (fuel : Nat) (fs : FS) (tw di bi : Nat) (h : tw < fsp.fsp_totsize) :
    (fspopulate_go buf sysOK fsp (fuel + 1) fs tw di bi).2.1 =
      (fspopulate_go buf sysOK fsp fuel (stepFS buf fsp fs tw di bi)
        (tw + expectedSz fsp tw bi) ((di + 1) % fsp.fsp_nsubdirs) (bi + 1)).2.1 := by
  rw [fspopulate_go_succ_sysOK buf fsp fuel fs tw di bi h]

theorem go_evs_succ_sysOK (buf : Nat → Nat) (fsp : fspopulate_t)
    (fuel : Nat) (fs : FS) (tw di bi : Nat) (h : tw < fsp.fsp_totsize) :
    (fspopulate_go buf sysOK fsp (fuel + 1) fs tw di bi).2.2.1 =
      stepEvs fsp fs tw di bi ++
        (fspopulate_go buf sysOK fsp fuel (stepFS buf fsp fs tw di bi)
          (tw + expectedSz fsp tw bi) ((di + 1) % fsp.fsp_nsubdirs) (bi + 1)).2.2.1 := by
  rw [fspopulate_go_succ_sysOK buf fsp fuel fs tw di bi h]

/-- With adequate fuel the loop under the all-succeeding oracle returns 0
and exits with `totwritten` equal to `fsp_totsize` exactly. -/
theorem fspopulate_go_sysOK_ok (buf : Nat → Nat) (fsp : fspopulate_t) :
    ∀ fuel fs tw di bi, tw ≤ fsp.fsp_totsize →
      fsp.fsp_totsize - tw + (fsp.fsp_nbulk - bi) < fuel →
      (fspopulate_go buf sysOK fsp fuel fs tw di bi).1 = RunRes.ok ∧
      (fspopulate_go buf sysOK fsp fuel fs tw di bi).2.2.2 = fsp.fsp_totsize := by
  intro fuel
  induction fuel with
  | zero => intro fs tw di bi h hf; omega
  | succ f ih =>
    intro fs tw di bi h hf
    by_cases hlt : tw < fsp.fsp_totsize
    · rw [fspopulate_go_succ_sysOK buf fsp f fs tw di bi hlt]
      have h0 := expectedSz_le fsp tw bi
      have h2 := expectedSz_measure fsp tw bi hlt
      obtain ⟨ha, hb⟩ := ih (stepFS buf fsp fs tw di bi) (tw + expectedSz fsp tw bi)
        ((di + 1) % fsp.fsp_nsubdirs) (bi + 1) (by omega) (by omega)
      exact ⟨ha, hb⟩
    · rw [fspopulate_go_exit buf sysOK fsp f fs tw di bi hlt]
      refine ⟨rfl, ?_⟩
      show tw = fsp.fsp_totsize
      omega

/-- Starting from a tree whose files all have indices below `bi`, the
loop creates exactly the planned files, each filled to its expected size,
on top of the starting tree (most recently created first). -/
theorem fspopulate_go_sysOK_files (buf : Nat → Nat) (fsp : fspopulate_t) :
    ∀ fuel fs tw di bi, (∀ e ∈ fs.files, e.2.1 < bi) →
      (fspopulate_go buf sysOK fsp fuel fs tw di bi).2.1.files =
        (planFrom fsp fuel tw di bi).reverse.map
          (fun p => (p.pdi, p.pbi, fillContent buf p.psz)) ++ fs.files := by
  intro fuel
  induction fuel with
  | zero =>
    intro fs tw di bi _
    simp [fspopulate_go, planFrom]
  | succ f ih =>
    intro fs tw di bi hfresh
    by_cases hlt : tw < fsp.fsp_totsize
    · rw [go_fs_succ_sysOK buf fsp f fs tw di bi hlt, planFrom_cons fsp f tw di bi hlt]
      have hstep := stepFS_files_fresh buf fsp fs tw di bi hfresh
      have hfresh' : ∀ e ∈ (stepFS buf fsp fs tw di bi).files, e.2.1 < bi + 1 := by
        rw [hstep]
        intro e he
        rcases List.mem_cons.mp he with rfl | he'
        · simp
        · have := hfresh e he'; omega
      rw [ih _ _ _ _ hfresh', hstep]
      simp [List.reverse_cons, List.map_append, List.append_assoc]
    · rw [fspopulate_go_exit buf sysOK fsp f fs tw di bi hlt,
        planFrom_exit fsp f tw di bi hlt]
      simp

/-- A directory index is present after the run exactly when it was
present before or some plan entry attempts its creation. -/
theorem fspopulate_go_sysOK_dirs (buf : Nat → Nat) (fsp : fspopulate_t) :
    ∀ fuel fs tw di bi d,
      (d ∈ (fspopulate_go buf sysOK fsp fuel fs tw di bi).2.1.dirs ↔
        d ∈ fs.dirs ∨
          ∃ p ∈ planFrom fsp fuel tw di bi, p.pmk = true ∧ p.pdi = d) := by
  intro fuel
  induction fuel with
  | zero =>
    intro fs tw di bi d
    simp [fspopulate_go, planFrom]
  | succ f ih =>
    intro fs tw di bi d
    by_cases hlt : tw < fsp.fsp_totsize
    · rw [go_fs_succ_sysOK buf fsp f fs tw di bi hlt, planFrom_cons fsp f tw di bi hlt,
        ih]
      have hdirs : ∀ x, x ∈ (stepFS buf fsp fs tw di bi).dirs ↔
          ((bi < fsp.fsp_nsubdirs ∧ x = di) ∨ x ∈ fs.dirs) := by
        intro x
        rw [stepFS_dirs]
        split
        · next hb =>
          rw [FS.mem_mkdirp_dirs]
          constructor
          · rintro (rfl | hx)
            · exact Or.inl ⟨hb, rfl⟩
            · exact Or.inr hx
          · rintro (⟨_, rfl⟩ | hx)
            · exact Or.inl rfl
            · exact Or.inr hx
        · next hb =>
          constructor
          · exact Or.inr
          · rintro (⟨hb', _⟩ | hx)
            · exact absurd hb' hb
            · exact hx
      rw [hdirs]
      simp only [List.mem_cons, decide_eq_true_eq]
      constructor
      · rintro ((⟨hb, rfl⟩ | hx) | ⟨p, hp, hpm, hpd⟩)
        · exact Or.inr ⟨_, Or.inl rfl, by simpa using hb, rfl⟩
        · exact Or.inl hx
        · exact Or.inr ⟨p, Or.inr hp, hpm, hpd⟩
      · rintro (hx | ⟨p, hp | hp, hpm, hpd⟩)
        · exact Or.inl (Or.inr hx)
        · subst hp
          simp only [decide_eq_true_eq] at hpm
          exact Or.inl (Or.inl ⟨hpm, hpd.symm⟩)
        · exact Or.inr ⟨p, hp, hpm, hpd⟩
    · rw [fspopulate_go_exit buf sysOK fsp f fs tw di bi hlt,
        planFrom_exit fsp f tw di bi hlt]
      simp

/-- The run never removes a file and never shrinks one: any file present
before is present after, at least as long. -/
theorem fspopulate_go_sysOK_mono (buf : Nat → Nat) (fsp : fspopulate_t) :
    ∀ fuel fs tw di bi d f c, fs.lookup d f = some c →
      ∃ c', (fspopulate_go buf sysOK fsp fuel fs tw di bi).2.1.lookup d f = some c' ∧
        c.length ≤ c'.length := by
  intro fuel
  induction fuel with
  | zero =>
    intro fs tw di bi d f c hc
    exact ⟨c, hc, le_refl _⟩
  | succ fl ih =>
    intro fs tw di bi d f c hc
    by_cases hlt : tw < fsp.fsp_totsize
    · rw [go_fs_succ_sysOK buf fsp fl fs tw di bi hlt]
      by_cases hk : d = di ∧ f = bi
      · obtain ⟨rfl, rfl⟩ := hk
        have hself := stepFS_lookup_self buf fsp fs tw d f
        rw [hc] at hself
        obtain ⟨c', hc', hlen⟩ := ih (stepFS buf fsp fs tw d f) _ _ _ d f _ hself
        refine ⟨c', hc', ?_⟩
        simp only [Option.getD_some] at hlen
        rw [List.length_append] at hlen
        omega
      · have hother := stepFS_lookup_other buf fsp fs tw di bi d f hk
        rw [hc] at hother
        exact ih (stepFS buf fsp fs tw di bi) _ _ _ d f c hother
    · rw [fspopulate_go_exit buf sysOK fsp fl fs tw di bi hlt]
      exact ⟨c, hc, le_refl _⟩

/-- After the run, every planned file exists with at least its expected
size. -/
theorem fspopulate_go_sysOK_after (buf : Nat → Nat) (fsp : fspopulate_t) :
    ∀ fuel fs tw di bi, ∀ p ∈ planFrom fsp fuel tw di bi,
      ∃ c, (fspopulate_go buf sysOK fsp fuel fs tw di bi).2.1.lookup p.pdi p.pbi = some c ∧
        p.psz ≤ c.length := by
  intro fuel
  induction fuel with
  | zero =>
    intro fs tw di bi p hp
    simp [planFrom] at hp
  | succ f ih =>
    intro fs tw di bi p hp
    by_cases hlt : tw < fsp.fsp_totsize
    · rw [planFrom_cons fsp f tw di bi hlt] at hp
      rw [go_fs_succ_sysOK buf fsp f fs tw di bi hlt]
      rcases List.mem_cons.mp hp with rfl | hp'
      · have hself := stepFS_lookup_self buf fsp fs tw di bi
        obtain ⟨c', hc', hlen⟩ :=
          fspopulate_go_sysOK_mono buf fsp f (stepFS buf fsp fs tw di bi)
            (tw + expectedSz fsp tw bi) ((di + 1) % fsp.fsp_nsubdirs) (bi + 1)
            di bi _ hself
        refine ⟨c', hc', ?_⟩
        rw [List.length_append, fillContent_length] at hlen
        show expectedSz fsp tw bi ≤ c'.length
        have hcur : ((fs.lookup di bi).getD []).length = fs.curSize di bi := rfl
        rw [hcur] at hlen
        have hsh : shortfall fsp fs tw di bi =
            (expectedSz fsp tw bi : Int) - (fs.curSize di bi : Int) := rfl
        omega
      · exact ih _ _ _ _ p hp'
    · rw [planFrom_exit fsp f tw di bi hlt] at hp
      simp at hp

/-- On a tree that already covers the whole plan (every planned directory
exists, every planned file is at least its expected size), the loop
returns 0 without changing the tree and without performing any write. -/
theorem fspopulate_go_sysOK_idem (buf : Nat → Nat) (fsp : fspopulate_t) :
    ∀ fuel fs tw di bi,
      (∀ p ∈ planFrom fsp fuel tw di bi,
        (p.pmk = true → p.pdi ∈ fs.dirs) ∧
        ∃ c, fs.lookup p.pdi p.pbi = some c ∧ p.psz ≤ c.length) →
      (fspopulate_go buf sysOK fsp fuel fs tw di bi).1 = RunRes.ok ∧
      (fspopulate_go buf sysOK fsp fuel fs tw di bi).2.1 = fs ∧
      ∀ ev ∈ (fspopulate_go buf sysOK fsp fuel fs tw di bi).2.2.1, ev.isWrite = false := by
  intro fuel
  induction fuel with
  | zero =>
    intro fs tw di bi _
    exact ⟨rfl, rfl, by intro ev hev; simp [fspopulate_go] at hev⟩
  | succ f ih =>
    intro fs tw di bi hcov
    by_cases hlt : tw < fsp.fsp_totsize
    · have hhead := hcov _ (by rw [planFrom_cons fsp f tw di bi hlt]; exact List.mem_cons_self _ _)
      obtain ⟨hmk, c, hc, hsz⟩ := hhead
      simp only [decide_eq_true_eq] at hmk
      obtain ⟨hfs, hsh⟩ := stepFS_noop buf fsp fs tw di bi c hmk hc hsz
      have hcov' : ∀ p ∈ planFrom fsp f (tw + expectedSz fsp tw bi)
          ((di + 1) % fsp.fsp_nsubdirs) (bi + 1),
          (p.pmk = true → p.pdi ∈ fs.dirs) ∧
          ∃ c, fs.lookup p.pdi p.pbi = some c ∧ p.psz ≤ c.length := by
        intro p hp
        exact hcov p (by rw [planFrom_cons fsp f tw di bi hlt]; exact List.mem_cons_of_mem _ hp)
      obtain ⟨ih1, ih2, ih3⟩ := ih fs (tw + expectedSz fsp tw bi)
        ((di + 1) % fsp.fsp_nsubdirs) (bi + 1) hcov'
      refine ⟨?_, ?_, ?_⟩
      · rw [go_res_succ_sysOK buf fsp f fs tw di bi hlt, hfs, ih1]
      · rw [go_fs_succ_sysOK buf fsp f fs tw di bi hlt, hfs, ih2]
      · rw [go_evs_succ_sysOK buf fsp f fs tw di bi hlt, hfs]
        intro ev hev
        rcases List.mem_append.mp hev with hev1 | hev2
        · unfold stepEvs at hev1
          rw [hsh, chunkList_zero] at hev1
          simp only [List.map_nil] at hev1
          rcases List.mem_append.mp hev1 with hm | ho
          · split at hm
            · rcases List.mem_singleton.mp hm with rfl
              rfl
            · simp at hm
          · rcases List.mem_cons.mp ho with rfl | h0
            · rfl
            · simp at h0
        · exact ih3 ev hev2
    · rw [fspopulate_go_exit buf sysOK fsp f fs tw di bi hlt]
      exact ⟨rfl, rfl, by intro ev hev; simp at hev⟩

/-! ## Structure of the plan -/

theorem planFrom_nonempty (fsp : fspopulate_t) (fuel tw di bi : Nat)
    (h : planFrom fsp fuel tw di bi ≠ []) : tw < fsp.fsp_totsize := by
  by_contra hlt
  cases fuel with
  | zero => exact h rfl
  | succ f => exact h (planFrom_exit fsp f tw di bi hlt)

theorem planFrom_pbi (fsp : fspopulate_t) :
    ∀ fuel tw di bi k p, (planFrom fsp fuel tw di bi)[k]? = some p →
      p.pbi = bi + k := by
  intro fuel
  induction fuel with
  | zero => intro tw di bi k p hp; simp [planFrom] at hp
  | succ f ih =>
    intro tw di bi k p hp
    by_cases hlt : tw < fsp.fsp_totsize
    · rw [planFrom_cons fsp f tw di bi hlt] at hp
      cases k with
      | zero =>
        rw [List.getElem?_cons_zero] at hp
        cases hp
        simp
      | succ k' =>
        rw [List.getElem?_cons_succ] at hp
        have := ih _ _ _ _ _ hp
        omega
    · rw [planFrom_exit fsp f tw di bi hlt] at hp
      simp at hp

theorem planFrom_pdi (fsp : fspopulate_t) (hN : 0 < fsp.fsp_nsubdirs) :
    ∀ fuel tw di bi k p, di < fsp.fsp_nsubdirs →
      (planFrom fsp fuel tw di bi)[k]? = some p →
      p.pdi = (di + k) % fsp.fsp_nsubdirs := by
  intro fuel
  induction fuel with
  | zero => intro tw di bi k p _ hp; simp [planFrom] at hp
  | succ f ih =>
    intro tw di bi k p hdi hp
    by_cases hlt : tw < fsp.fsp_totsize
    · rw [planFrom_cons fsp f tw di bi hlt] at hp
      cases k with
      | zero =>
        rw [List.getElem?_cons_zero] at hp
        cases hp
        show di = (di + 0) % fsp.fsp_nsubdirs
        rw [Nat.add_zero, Nat.mod_eq_of_lt hdi]
      | succ k' =>
        rw [List.getElem?_cons_succ] at hp
        have hdi' : (di + 1) % fsp.fsp_nsubdirs < fsp.fsp_nsubdirs :=
          Nat.mod_lt _ hN
        have := ih _ _ _ _ _ hdi' hp
        rw [this, Nat.mod_add_mod]
        have harg : di + 1 + k' = di + (k' + 1) := by omega
        rw [harg]
    · rw [planFrom_exit fsp f tw di bi hlt] at hp
      simp at hp

theorem planFrom_pmk (fsp : fspopulate_t) :
    ∀ fuel tw di bi k p, (planFrom fsp fuel tw di bi)[k]? = some p →
      p.pmk = decide (bi + k < fsp.fsp_nsubdirs) := by
  intro fuel
  induction fuel with
  | zero => intro tw di bi k p hp; simp [planFrom] at hp
  | succ f ih =>
    intro tw di bi k p hp
    by_cases hlt : tw < fsp.fsp_totsize
    · rw [planFrom_cons fsp f tw di bi hlt] at hp
      cases k with
      | zero =>
        rw [List.getElem?_cons_zero] at hp
        cases hp
        simp
      | succ k' =>
        rw [List.getElem?_cons_succ] at hp
        have := ih _ _ _ _ _ hp
        rw [this]
        have harg : bi + 1 + k' = bi + (k' + 1) := by omega
        rw [harg]
    · rw [planFrom_exit fsp f tw di bi hlt] at hp
      simp at hp

/-- Entry `k`'s expected size is the clipping formula evaluated at the
running total accumulated over the previous entries. -/
theorem planFrom_psz (fsp : fspopulate_t) :
    ∀ fuel tw di bi k p, (planFrom fsp fuel tw di bi)[k]? = some p →
      p.psz = expectedSz fsp
        (tw + (((planFrom fsp fuel tw di bi).take k).map PlanEnt.psz).sum) (bi + k) := by
  intro fuel
  induction fuel with
  | zero => intro tw di bi k p hp; simp [planFrom] at hp
  | succ f ih =>
    intro tw di bi k p hp
    by_cases hlt : tw < fsp.fsp_totsize
    · rw [planFrom_cons fsp f tw di bi hlt] at hp ⊢
      cases k with
      | zero =>
        rw [List.getElem?_cons_zero] at hp
        cases hp
        simp
      | succ k' =>
        rw [List.getElem?_cons_succ] at hp
        have := ih _ _ _ _ _ hp
        rw [this, List.take_succ_cons, List.map_cons, List.sum_cons]
        have h1 : bi + 1 + k' = bi + (k' + 1) := by omega
        have h2 : ∀ s : Nat, tw + expectedSz fsp tw bi + s =
            tw + (PlanEnt.psz ⟨decide (bi < fsp.fsp_nsubdirs), di, bi, expectedSz fsp tw bi⟩ + s) := by
          intro s
          show tw + expectedSz fsp tw bi + s = tw + (expectedSz fsp tw bi + s)
          omega
        rw [h1, h2]
    · rw [planFrom_exit fsp f tw di bi hlt] at hp
      simp at hp

theorem MIN_eq_left_of_lt (a b : Nat) (h : MIN a b < b) : MIN a b = a := by
  unfold MIN at h ⊢
  by_cases hab : a < b
  · rw [if_pos hab]
  · rw [if_neg hab] at h ⊢
    omega

/-- Every plan entry that is not the last has its full nominal size: only
the final file can be clipped. -/
theorem planFrom_psz_nominal (fsp : fspopulate_t) :
    ∀ fuel tw di bi k p q, (planFrom fsp fuel tw di bi)[k]? = some p →
      (planFrom fsp fuel tw di bi)[k + 1]? = some q →
      p.psz = nominalSz fsp (bi + k) := by
  intro fuel
  induction fuel with
  | zero => intro tw di bi k p q hp _; simp [planFrom] at hp
  | succ f ih =>
    intro tw di bi k p q hp hq
    by_cases hlt : tw < fsp.fsp_totsize
    · rw [planFrom_cons fsp f tw di bi hlt] at hp hq
      cases k with
      | zero =>
        rw [List.getElem?_cons_zero] at hp
        rw [List.getElem?_cons_succ] at hq
        cases hp
        have hne : planFrom fsp f (tw + expectedSz fsp tw bi)
            ((di + 1) % fsp.fsp_nsubdirs) (bi + 1) ≠ [] := by
          intro hnil
          rw [hnil] at hq
          simp at hq
        have hlt' := planFrom_nonempty fsp f _ _ _ hne
        have hle := expectedSz_le fsp tw bi
        show expectedSz fsp tw bi = nominalSz fsp (bi + 0)
        rw [Nat.add_zero]
        unfold expectedSz
        exact MIN_eq_left_of_lt _ _ (by unfold expectedSz at hlt' hle; omega)
      | succ k' =>
        rw [List.getElem?_cons_succ] at hp hq
        have := ih _ _ _ _ _ _ hp hq
        rw [this]
        have harg : bi + 1 + k' = bi + (k' + 1) := by omega
        rw [harg]
    · rw [planFrom_exit fsp f tw di bi hlt] at hp
      simp at hp

/-- With adequate fuel the planned sizes sum exactly to the bytes still
to cover. -/
theorem planFrom_sum (fsp : fspopulate_t) :
    ∀ fuel tw di bi, tw ≤ fsp.fsp_totsize →
      fsp.fsp_totsize - tw + (fsp.fsp_nbulk - bi) < fuel →
      ((planFrom fsp fuel tw di bi).map PlanEnt.psz).sum = fsp.fsp_totsize - tw := by
  intro fuel
  induction fuel with
  | zero => intro tw di bi h hf; omega
  | succ f ih =>
    intro tw di bi h hf
    by_cases hlt : tw < fsp.fsp_totsize
    · rw [planFrom_cons fsp f tw di bi hlt]
      have h0 := expectedSz_le fsp tw bi
      have h2 := expectedSz_measure fsp tw bi hlt
      have := ih (tw + expectedSz fsp tw bi) ((di + 1) % fsp.fsp_nsubdirs) (bi + 1)
        (by omega) (by omega)
      rw [List.map_cons, List.sum_cons, this]
      show expectedSz fsp tw bi + _ = _
      omega
    · rw [planFrom_exit fsp f tw di bi hlt]
      show (0 : Nat) = fsp.fsp_totsize - tw
      omega

/-- The planned sizes do not depend on the subdirectory count (nor on the
directory counter). -/
theorem planFrom_psz_nsubdirs (fsp : fspopulate_t) (n : Nat) :
    ∀ fuel tw di di' bi,
      ((planFrom { fsp with fsp_nsubdirs := n } fuel tw di bi).map PlanEnt.psz) =
        ((planFrom fsp fuel tw di' bi).map PlanEnt.psz) := by
  intro fuel
  induction fuel with
  | zero => intro tw di di' bi; rfl
  | succ f ih =>
    intro tw di di' bi
    by_cases hlt : tw < fsp.fsp_totsize
    · rw [planFrom_cons { fsp with fsp_nsubdirs := n } f tw di bi hlt,
        planFrom_cons fsp f tw di' bi hlt]
      simp only [List.map_cons]
      have he : expectedSz { fsp with fsp_nsubdirs := n } tw bi = expectedSz fsp tw bi := rfl
      rw [he, ih (tw + expectedSz fsp tw bi) ((di + 1) % n)
        ((di' + 1) % fsp.fsp_nsubdirs) (bi + 1)]
    · rw [planFrom_exit { fsp with fsp_nsubdirs := n } f tw di bi hlt,
        planFrom_exit fsp f tw di' bi hlt]

/-! ## Trace lemmas -/

theorem writeEvs_openPath (p : String) (l : List Nat) :
    (l.map (fun c => Event.writeC p c c)).filterMap Event.openPath = [] := by
  induction l with
  | nil => rfl
  | cons a l ih => simp [List.filterMap_cons, Event.openPath, ih]

theorem stepEvs_openPaths (fsp : fspopulate_t) (fs : FS) (tw di bi : Nat) :
    (stepEvs fsp fs tw di bi).filterMap Event.openPath =
      [filePath fsp.fsp_path di bi] := by
  unfold stepEvs
  rw [List.filterMap_append, List.filterMap_cons]
  show _ ++ (filePath fsp.fsp_path di bi ::
    ((chunkList _).map _).filterMap Event.openPath) = _
  rw [writeEvs_openPath]
  split <;> simp [Event.openPath]

/-- The opened paths of a run are exactly the planned paths, in order. -/
theorem fspopulate_go_sysOK_openPaths (buf : Nat → Nat) (fsp : fspopulate_t) :
    ∀ fuel fs tw di bi,
      (fspopulate_go buf sysOK fsp fuel fs tw di bi).2.2.1.filterMap Event.openPath =
        (planFrom fsp fuel tw di bi).map (fun p => filePath fsp.fsp_path p.pdi p.pbi) := by
  intro fuel
  induction fuel with
  | zero => intro fs tw di bi; simp [fspopulate_go, planFrom]
  | succ f ih =>
    intro fs tw di bi
    by_cases hlt : tw < fsp.fsp_totsize
    · rw [go_evs_succ_sysOK buf fsp f fs tw di bi hlt, planFrom_cons fsp f tw di bi hlt,
        List.filterMap_append, stepEvs_openPaths, ih, List.map_cons]
      rfl
    · rw [fspopulate_go_exit buf sysOK fsp f fs tw di bi hlt,
        planFrom_exit fsp f tw di bi hlt]
      simp

theorem stepEvs_mkdir_count (fsp : fspopulate_t) (fs : FS) (tw di bi : Nat) :
    (stepEvs fsp fs tw di bi).countP Event.isMkdir =
      if bi < fsp.fsp_nsubdirs then 1 else 0 := by
  unfold stepEvs
  rw [List.countP_append]
  have hw : ((chunkList (shortfall fsp fs tw di bi).toNat).map (fun c =>
      Event.writeC (filePath fsp.fsp_path di bi) c c)).countP Event.isMkdir = 0 := by
    rw [List.countP_eq_zero]
    intro ev hev
    obtain ⟨c, _, rfl⟩ := List.mem_map.mp hev
    simp [Event.isMkdir]
  rw [List.countP_cons]
  split <;> simp [Event.isMkdir, hw]

/-- Once `bi` has reached the subdirectory count, no later iteration ever
attempts a directory creation. -/
theorem fspopulate_go_sysOK_no_mkdir (buf : Nat → Nat) (fsp : fspopulate_t) :
    ∀ fuel fs tw di bi, fsp.fsp_nsubdirs ≤ bi →
      ∀ ev ∈ (fspopulate_go buf sysOK fsp fuel fs tw di bi).2.2.1,
        ev.isMkdir = false := by
  intro fuel
  induction fuel with
  | zero => intro fs tw di bi _ ev hev; simp [fspopulate_go] at hev
  | succ f ih =>
    intro fs tw di bi hbi ev hev
    by_cases hlt : tw < fsp.fsp_totsize
    · rw [go_evs_succ_sysOK buf fsp f fs tw di bi hlt] at hev
      rcases List.mem_append.mp hev with h1 | h2
      · unfold stepEvs at h1
        rw [if_neg (by omega)] at h1
        simp only [List.nil_append, List.mem_cons, List.mem_map] at h1
        rcases h1 with rfl | ⟨c, _, rfl⟩
        · rfl
        · rfl
      · exact ih _ _ _ _ (by omega) ev h2
    · rw [fspopulate_go_exit buf sysOK fsp f fs tw di bi hlt] at hev
      simp at hev

/-! ## Closed form of the fill bytes -/

theorem fillContent_chunk (buf : Nat → Nat) (n : Nat) (h : 0 < n) :
    fillContent buf n =
      chunkBytes buf (MIN n fsp_bufsz) ++ fillContent buf (n - MIN n fsp_bufsz) := by
  unfold fillContent
  rw [chunkList_pos n h]
  simp only [List.map_cons, List.flatten_cons]

/-- A fully successful `populate_file` for `n` bytes appends exactly the
buffer contents repeated cyclically: byte `j` of the appended region is
`buf (j % fsp_bufsz)`. -/
theorem fillContent_eq (buf : Nat → Nat) (n : Nat) :
    fillContent buf n = (List.range n).map (fun j => buf (j % fsp_bufsz)) := by
  induction n using Nat.strong_induction_on with
  | _ n ih =>
    rcases Nat.eq_zero_or_pos n with rfl | hn
    · simp [fillContent_zero]
    · have hchunk : chunkBytes buf fsp_bufsz =
          (List.range fsp_bufsz).map (fun j => buf (j % fsp_bufsz)) := by
        unfold chunkBytes
        exact List.map_congr_left (fun j hj => by
          rw [Nat.mod_eq_of_lt (List.mem_range.mp hj)])
      by_cases hb : n ≤ fsp_bufsz
      · have hMIN : MIN n fsp_bufsz = n := by unfold MIN; split <;> omega
        rw [fillContent_chunk buf n hn, hMIN, Nat.sub_self, fillContent_zero,
          List.append_nil]
        unfold chunkBytes
        exact List.map_congr_left (fun j hj => by
          have hjb : j < fsp_bufsz := by
            have := List.mem_range.mp hj; omega
          rw [Nat.mod_eq_of_lt hjb])
      · have hMIN : MIN n fsp_bufsz = fsp_bufsz := by unfold MIN; split <;> omega
        have hlt : n - fsp_bufsz < n := by
          have : 0 < fsp_bufsz := by unfold fsp_bufsz; omega
          omega
        rw [fillContent_chunk buf n hn, hMIN, ih (n - fsp_bufsz) hlt]
        conv_rhs => rw [show n = fsp_bufsz + (n - fsp_bufsz) by omega]
        rw [List.range_add, List.map_append, List.map_map]
        have hshift : (List.range (n - fsp_bufsz)).map
              ((fun j => buf (j % fsp_bufsz)) ∘ (fun j => fsp_bufsz + j)) =
            (List.range (n - fsp_bufsz)).map (fun j => buf (j % fsp_bufsz)) := by
          exact List.map_congr_left (fun j _ => by
            show buf ((fsp_bufsz + j) % fsp_bufsz) = buf (j % fsp_bufsz)
            rw [Nat.add_mod_left])
        rw [hshift, hchunk]

theorem fspopulate_eq_go (buf : Nat → Nat) (sys : SysOracle) (fsp : fspopulate_t)
    (fs : FS) (hdry : fsp.fsp_dryrun = false) :
    fspopulate buf sys fsp fs =
      fspopulate_go buf sys fsp (fspopulate_fuel fsp) fs 0 0 0 := by
  unfold fspopulate
  rw [if_neg (by simp [hdry])]

theorem fspopulate_fuel_adequate (fsp : fspopulate_t) :
    fsp.fsp_totsize - 0 + (fsp.fsp_nbulk - 0) < fspopulate_fuel fsp := by
  unfold fspopulate_fuel
  omega

/-- The tree produced from an empty root is exactly the plan, filled. -/
theorem fspopulate_files_sysOK (buf : Nat → Nat) (fsp : fspopulate_t)
    (hdry : fsp.fsp_dryrun = false) :
    (fspopulate buf sysOK fsp FS.empty).2.1.files =
      (thePlan fsp).reverse.map (fun p => (p.pdi, p.pbi, fillContent buf p.psz)) := by
  rw [fspopulate_eq_go buf sysOK fsp FS.empty hdry,
    fspopulate_go_sysOK_files buf fsp (fspopulate_fuel fsp) FS.empty 0 0 0
      (by intro e he; simp [FS.empty] at he)]
  rw [show FS.empty.files = [] from rfl, List.append_nil]
  rfl

/-- The produced files' sizes sum to the configured total size. -/
theorem fspopulate_sizes_sum_sysOK (buf : Nat → Nat) (fsp : fspopulate_t)
    (hdry : fsp.fsp_dryrun = false) :
    ((fspopulate buf sysOK fsp FS.empty).2.1.files.map
      (fun e => e.2.2.length)).sum = fsp.fsp_totsize := by
  rw [fspopulate_files_sysOK buf fsp hdry, List.map_map]
  have h1 : ((thePlan fsp).reverse.map
      ((fun e => e.2.2.length) ∘ (fun p => (p.pdi, p.pbi, fillContent buf p.psz)))) =
      (thePlan fsp).reverse.map PlanEnt.psz :=
    List.map_congr_left (fun p _ => by
      show (fillContent buf p.psz).length = p.psz
      exact fillContent_length buf p.psz)
  rw [h1, List.map_reverse, List.sum_reverse]
  have := planFrom_sum fsp (fspopulate_fuel fsp) 0 0 0 (by omega)
    (fspopulate_fuel_adequate fsp)
  unfold thePlan
  omega

/-! ## The claims -/

/-- Claim C2: for every valid configuration (an actual, non-dry run),
after a successful run from an empty root every file has exactly its
planned expected size, the sum of all produced files' sizes equals the
configured total size exactly, and at loop exit the running total
`totwritten` equals `fsp_totsize`. -/
theorem claim_C2 (buf : Nat → Nat) (fsp : fspopulate_t)
    (hdry : fsp.fsp_dryrun = false) :
    (fspopulate buf sysOK fsp FS.empty).1 = RunRes.ok ∧
    (fspopulate buf sysOK fsp FS.empty).2.2.2 = fsp.fsp_totsize ∧
    (fspopulate buf sysOK fsp FS.empty).2.1.files.map
        (fun e => (e.1, e.2.1, e.2.2.length)) =
      (thePlan fsp).reverse.map (fun p => (p.pdi, p.pbi, p.psz)) ∧
    ((fspopulate buf sysOK fsp FS.empty).2.1.files.map
        (fun e => e.2.2.length)).sum = fsp.fsp_totsize := by
  obtain ⟨hok, htw⟩ := fspopulate_go_sysOK_ok buf fsp (fspopulate_fuel fsp)
    FS.empty 0 0 0 (by omega) (fspopulate_fuel_adequate fsp)
  rw [fspopulate_eq_go buf sysOK fsp FS.empty hdry] at *
  refine ⟨hok, htw, ?_, ?_⟩
  · rw [← fspopulate_eq_go buf sysOK fsp FS.empty hdry,
      fspopulate_files_sysOK buf fsp hdry, List.map_map]
    exact List.map_congr_left (fun p _ => by
      show (p.pdi, p.pbi, (fillContent buf p.psz).length) = (p.pdi, p.pbi, p.psz)
      rw [fillContent_length])
  · rw [← fspopulate_eq_go buf sysOK fsp FS.empty hdry]
    exact fspopulate_sizes_sum_sysOK buf fsp hdry

/-- Claim C9: for every configuration the population loop terminates with
success, producing planned bytes exactly up to the configured total; in
particular for total size 0 the loop body never runs, no file and no
subdirectory is created, and the process exits 0. -/
theorem claim_C9 (buf : Nat → Nat) (fsp : fspopulate_t) (fs : FS)
    (hdry : fsp.fsp_dryrun = false) :
    ((fspopulate buf sysOK fsp fs).1 = RunRes.ok ∧
      (fspopulate buf sysOK fsp fs).2.2.2 = fsp.fsp_totsize ∧
      mainExit (fspopulate buf sysOK fsp fs).1 = some 0) ∧
    (fsp.fsp_totsize = 0 →
      fspopulate buf sysOK fsp fs = (RunRes.ok, fs, [], 0) ∧ thePlan fsp = []) := by
  rw [fspopulate_eq_go buf sysOK fsp fs hdry]
  obtain ⟨hok, htw⟩ := fspopulate_go_sysOK_ok buf fsp (fspopulate_fuel fsp)
    fs 0 0 0 (by omega) (fspopulate_fuel_adequate fsp)
  refine ⟨⟨hok, htw, by rw [hok]; rfl⟩, ?_⟩
  intro h0
  have hfuel : fspopulate_fuel fsp = fsp.fsp_nbulk + 1 := by
    unfold fspopulate_fuel
    omega
  have hstop : ¬ (0 : Nat) < fsp.fsp_totsize := by omega
  rw [hfuel]
  exact ⟨fspopulate_go_exit buf sysOK fsp fsp.fsp_nbulk fs 0 0 0 hstop, by
    unfold thePlan
    rw [hfuel]
    exact planFrom_exit fsp fsp.fsp_nbulk 0 0 0 hstop⟩

/-- Claim C4: for a fixed configuration, runs whose fill buffer was
produced by the (deterministic, fixed-seed) `init_buffer` are
byte-identical — same result, same tree, same event trace — and every
file created from an empty root carries the buffer repeated cyclically,
so the content is fully determined by the configuration. -/
theorem claim_C4 (fsp : fspopulate_t) (b1 b2 : Nat → Nat)
    (h1 : b1 = fsp_buf) (h2 : b2 = fsp_buf) :
    fspopulate b1 sysOK fsp FS.empty = fspopulate b2 sysOK fsp FS.empty ∧
    (fsp.fsp_dryrun = false →
      ∀ e ∈ (fspopulate b1 sysOK fsp FS.empty).2.1.files,
        e.2.2 = (List.range e.2.2.length).map (fun j => fsp_buf (j % fsp_bufsz))) := by
  subst h1
  subst h2
  refine ⟨rfl, ?_⟩
  intro hdry e he
  rw [fspopulate_eq_go fsp_buf sysOK fsp FS.empty hdry,
    fspopulate_go_sysOK_files fsp_buf fsp (fspopulate_fuel fsp) FS.empty 0 0 0
      (by intro x hx; simp [FS.empty] at hx)] at he
  rw [show FS.empty.files = [] from rfl, List.append_nil] at he
  obtain ⟨p, _, rfl⟩ := List.mem_map.mp he
  show fillContent fsp_buf p.psz =
    (List.range (fillContent fsp_buf p.psz).length).map (fun j => fsp_buf (j % fsp_bufsz))
  rw [fillContent_length, fillContent_eq]

/-- Claim C3: under the policy `main` installs (`fsp_bulksize =
fsp_totsize / 1024`), plan entry `k` has file index `k` and expected size
`fsp_totsize / 1024` for `k < fsp_nbulk` and 10 MiB afterwards, in each
case clipped to the remaining bytes, so only the final entry can fall
short of its nominal size; and the planned sizes are independent of the
subdirectory count. -/
theorem claim_C3 (fsp : fspopulate_t)
    (hbulk : fsp.fsp_bulksize = fsp.fsp_totsize / 1024) :
    (∀ k p, (thePlan fsp)[k]? = some p →
      p.pbi = k ∧
      p.psz = MIN (if k < fsp.fsp_nbulk then fsp.fsp_totsize / 1024 else 10 * 1024 * 1024)
        (fsp.fsp_totsize - (((thePlan fsp).take k).map PlanEnt.psz).sum) ∧
      (∀ q, (thePlan fsp)[k + 1]? = some q →
        p.psz = (if k < fsp.fsp_nbulk then fsp.fsp_totsize / 1024
          else 10 * 1024 * 1024))) ∧
    (∀ n : Nat,
      ((planFrom { fsp with fsp_nsubdirs := n } (fspopulate_fuel fsp) 0 0 0).map
        PlanEnt.psz) = ((thePlan fsp).map PlanEnt.psz)) := by
  constructor
  · intro k p hp
    have hpbi := planFrom_pbi fsp (fspopulate_fuel fsp) 0 0 0 k p hp
    have hpsz := planFrom_psz fsp (fspopulate_fuel fsp) 0 0 0 k p hp
    refine ⟨by omega, ?_, ?_⟩
    · rw [hpsz]
      unfold expectedSz nominalSz thePlan
      rw [hbulk]
      have hz : (0 : Nat) + k = k := by omega
      have hz2 : ∀ s : Nat, (0 : Nat) + s = s := by omega
      rw [hz, hz2]
    · intro q hq
      have := planFrom_psz_nominal fsp (fspopulate_fuel fsp) 0 0 0 k p q hp hq
      rw [this]
      unfold nominalSz
      rw [hbulk]
      have hz : (0 : Nat) + k = k := by omega
      rw [hz]
  · intro n
    exact planFrom_psz_nsubdirs fsp n (fspopulate_fuel fsp) 0 0 0 0

/-- Claim C5: the writer opens the planned file append-only: the old
content stays as an untouched prefix and exactly the (positive part of
the) shortfall is appended, drawn from the fill buffer in chunks of
`MIN(remaining, sizeof fsp_buf)`; no other file changes, a non-positive
shortfall produces no write at all, and a pre-existing file at or above
its expected size leaves the whole tree untouched. -/
theorem claim_C5 (buf : Nat → Nat) (fsp : fspopulate_t) (fs : FS)
    (tw di bi : Nat) :
    ((stepFS buf fsp fs tw di bi).lookup di bi =
      some (((fs.lookup di bi).getD []) ++
        fillContent buf (shortfall fsp fs tw di bi).toNat)) ∧
    (∀ d f, ¬ (d = di ∧ f = bi) →
      (stepFS buf fsp fs tw di bi).lookup d f = fs.lookup d f) ∧
    (populate_file (fun _ n => some n) (shortfall fsp fs tw di bi) =
      (PfRes.ok,
        (chunkList (shortfall fsp fs tw di bi).toNat).map (fun c => (c, c)))) ∧
    ((chunkList (shortfall fsp fs tw di bi).toNat).sum =
      (shortfall fsp fs tw di bi).toNat) ∧
    (shortfall fsp fs tw di bi ≤ 0 →
      chunkList (shortfall fsp fs tw di bi).toNat = []) ∧
    (∀ c, fs.lookup di bi = some c → expectedSz fsp tw bi ≤ c.length →
      (bi < fsp.fsp_nsubdirs → di ∈ fs.dirs) →
      stepFS buf fsp fs tw di bi = fs) := by
  refine ⟨stepFS_lookup_self buf fsp fs tw di bi,
    fun d f h => stepFS_lookup_other buf fsp fs tw di bi d f h,
    populate_file_sysOK _, chunkList_sum _, ?_, ?_⟩
  · intro h
    have h0 : (shortfall fsp fs tw di bi).toNat = 0 := by omega
    rw [h0]
    exact chunkList_zero
  · intro c hc hsz hmk
    exact (stepFS_noop buf fsp fs tw di bi c hmk hc hsz).1

/-- Claim C6: an iteration attempts a (idempotent, already-exists-is-ok)
directory creation exactly when the file counter satisfies
`bi < fsp_nsubdirs`; round-robin placement (`di` advancing modulo
`fsp_nsubdirs`) continues regardless, and once `bi` has reached
`fsp_nsubdirs` no later iteration of the run ever attempts one. -/
theorem claim_C6 (buf : Nat → Nat) (fsp : fspopulate_t) (fs : FS)
    (tw di bi : Nat) :
    (fspopulate_iter buf sysOK fsp fs tw di bi =
      .next (stepFS buf fsp fs tw di bi) (stepEvs fsp fs tw di bi)
        (tw + expectedSz fsp tw bi) ((di + 1) % fsp.fsp_nsubdirs) (bi + 1)) ∧
    ((stepEvs fsp fs tw di bi).countP Event.isMkdir =
      if bi < fsp.fsp_nsubdirs then 1 else 0) ∧
    (di ∈ fs.dirs → fs.mkdirp di = fs) ∧
    (fsp.fsp_nsubdirs ≤ bi → ∀ fuel, ∀ ev ∈
      (fspopulate_go buf sysOK fsp fuel fs tw di bi).2.2.1,
        ev.isMkdir = false) :=
  ⟨fspopulate_iter_sysOK buf fsp fs tw di bi,
    stepEvs_mkdir_count fsp fs tw di bi,
    FS.mkdirp_of_mem fs di,
    fun hbi fuel => fspopulate_go_sysOK_no_mkdir buf fsp fuel fs tw di bi hbi⟩

/-- Claim C7: file `k` of the run is opened at path
`ROOT/dir%06d/file%06d` with directory index `k mod fsp_nsubdirs` and
file index `k`; consequently no directory index repeats among the first
`fsp_nsubdirs` files, and when the run plans at least `fsp_nsubdirs`
files every directory index receives a file among the first
`fsp_nsubdirs` of them. -/
theorem claim_C7 (buf : Nat → Nat) (fsp : fspopulate_t)
    (hdry : fsp.fsp_dryrun = false) (hN : 0 < fsp.fsp_nsubdirs) :
    (∀ k p, (thePlan fsp)[k]? = some p →
      p.pbi = k ∧ p.pdi = k % fsp.fsp_nsubdirs ∧
      ((fspopulate buf sysOK fsp FS.empty).2.2.1.filterMap Event.openPath)[k]? =
        some (filePath fsp.fsp_path (k % fsp.fsp_nsubdirs) k)) ∧
    (∀ k1 k2 p1 p2, (thePlan fsp)[k1]? = some p1 → (thePlan fsp)[k2]? = some p2 →
      k1 < k2 → p1.pdi = p2.pdi → fsp.fsp_nsubdirs ≤ k2) ∧
    (∀ d, d < fsp.fsp_nsubdirs → fsp.fsp_nsubdirs ≤ (thePlan fsp).length →
      ∃ k p, k < fsp.fsp_nsubdirs ∧ (thePlan fsp)[k]? = some p ∧ p.pdi = d) := by
  have hpdi : ∀ k p, (thePlan fsp)[k]? = some p → p.pdi = k % fsp.fsp_nsubdirs := by
    intro k p hp
    have := planFrom_pdi fsp hN (fspopulate_fuel fsp) 0 0 0 k p hN hp
    rw [this]
    have h0 : (0 : Nat) + k = k := by omega
    rw [h0]
  refine ⟨?_, ?_, ?_⟩
  · intro k p hp
    have hpbi : p.pbi = k := by
      have := planFrom_pbi fsp (fspopulate_fuel fsp) 0 0 0 k p hp
      omega
    refine ⟨hpbi, hpdi k p hp, ?_⟩
    rw [fspopulate_eq_go buf sysOK fsp FS.empty hdry,
      fspopulate_go_sysOK_openPaths buf fsp (fspopulate_fuel fsp) FS.empty 0 0 0,
      List.getElem?_map]
    unfold thePlan at hp
    rw [hp]
    show some (filePath fsp.fsp_path p.pdi p.pbi) = _
    rw [hpbi, hpdi k p hp]
  · intro k1 k2 p1 p2 hp1 hp2 hlt hdd
    by_contra hcon
    push_neg at hcon
    have h1 := hpdi k1 p1 hp1
    have h2 := hpdi k2 p2 hp2
    rw [h1, h2] at hdd
    rw [Nat.mod_eq_of_lt (by omega), Nat.mod_eq_of_lt (by omega)] at hdd
    omega
  · intro d hd hlen
    have hdl : d < (thePlan fsp).length := by omega
    refine ⟨d, (thePlan fsp).get ⟨d, hdl⟩, hd, ?_, ?_⟩
    · exact List.getElem?_eq_getElem hdl
    · have := hpdi d ((thePlan fsp).get ⟨d, hdl⟩) (List.getElem?_eq_getElem hdl)
      rw [this, Nat.mod_eq_of_lt hd]

/-- Claim C1: re-running against a tree left by a previous run writes,
per planned file, only the shortfall (a file already at or above its
expected size receives zero writes); running on the output of a run
changes nothing, performs zero writes, and succeeds. -/
theorem claim_C1 (buf : Nat → Nat) (fsp : fspopulate_t) (fs0 : FS)
    (hdry : fsp.fsp_dryrun = false) :
    (∀ fs tw di bi,
      ((stepEvs fsp fs tw di bi).map Event.resBytes).sum =
        (shortfall fsp fs tw di bi).toNat ∧
      (expectedSz fsp tw bi ≤ fs.curSize di bi →
        ∀ ev ∈ stepEvs fsp fs tw di bi, ev.isWrite = false)) ∧
    ((fspopulate buf sysOK fsp ((fspopulate buf sysOK fsp fs0).2.1)).2.1 =
        (fspopulate buf sysOK fsp fs0).2.1 ∧
      (fspopulate buf sysOK fsp ((fspopulate buf sysOK fsp fs0).2.1)).1 = RunRes.ok ∧
      ∀ ev ∈ (fspopulate buf sysOK fsp ((fspopulate buf sysOK fsp fs0).2.1)).2.2.1,
        ev.isWrite = false) := by
  have hsumev : ∀ fs tw di bi,
      ((stepEvs fsp fs tw di bi).map Event.resBytes).sum =
        (shortfall fsp fs tw di bi).toNat := by
    intro fs tw di bi
    unfold stepEvs
    rw [List.map_append, List.sum_append, List.map_cons, List.sum_cons, List.map_map]
    have h1 : ((if bi < fsp.fsp_nsubdirs
        then [Event.mkdirA (dirPath fsp.fsp_path di)] else []).map Event.resBytes).sum = 0 := by
      split <;> rfl
    have h2 : ((chunkList (shortfall fsp fs tw di bi).toNat).map
        (Event.resBytes ∘ fun c => Event.writeC (filePath fsp.fsp_path di bi) c c)) =
        chunkList (shortfall fsp fs tw di bi).toNat := by
      simp only [Function.comp_def]
      exact List.map_id' _
    rw [h1, h2, chunkList_sum]
    have h3 : (Event.openF (filePath fsp.fsp_path di bi)).resBytes = 0 := rfl
    omega
  constructor
  · intro fs tw di bi
    refine ⟨hsumev fs tw di bi, ?_⟩
    intro hle ev hev
    have hsh : (shortfall fsp fs tw di bi).toNat = 0 := by
      have : shortfall fsp fs tw di bi =
          (expectedSz fsp tw bi : Int) - (fs.curSize di bi : Int) := rfl
      omega
    unfold stepEvs at hev
    rw [hsh, chunkList_zero] at hev
    simp only [List.map_nil] at hev
    rcases List.mem_append.mp hev with hm | ho
    · split at hm
      · rcases List.mem_singleton.mp hm with rfl
        rfl
      · simp at hm
    · rcases List.mem_cons.mp ho with rfl | h0
      · rfl
      · simp at h0
  · have hcov : ∀ p ∈ planFrom fsp (fspopulate_fuel fsp) 0 0 0,
        (p.pmk = true → p.pdi ∈ (fspopulate buf sysOK fsp fs0).2.1.dirs) ∧
        ∃ c, (fspopulate buf sysOK fsp fs0).2.1.lookup p.pdi p.pbi = some c ∧
          p.psz ≤ c.length := by
      intro p hp
      rw [fspopulate_eq_go buf sysOK fsp fs0 hdry]
      constructor
      · intro hpmk
        rw [fspopulate_go_sysOK_dirs buf fsp (fspopulate_fuel fsp) fs0 0 0 0 p.pdi]
        exact Or.inr ⟨p, hp, hpmk, rfl⟩
      · exact fspopulate_go_sysOK_after buf fsp (fspopulate_fuel fsp) fs0 0 0 0 p hp
    obtain ⟨hok, hfs, hevs⟩ := fspopulate_go_sysOK_idem buf fsp (fspopulate_fuel fsp)
      ((fspopulate buf sysOK fsp fs0).2.1) 0 0 0 hcov
    rw [fspopulate_eq_go buf sysOK fsp ((fspopulate buf sysOK fsp fs0).2.1) hdry]
    exact ⟨hfs, hok, hevs⟩

/-! ## The small-total scenario under the default policy -/

/-- With a zero bulk size and a positive total of at most one standard
file, the plan has exactly `fsp_nbulk + 1` entries. -/
theorem planFrom_bulkzero_length (fsp : fspopulate_t) (hb : fsp.fsp_bulksize = 0)
    (ht : 0 < fsp.fsp_totsize) (hstd : fsp.fsp_totsize ≤ 10 * 1024 * 1024) :
    ∀ fuel di bi, bi ≤ fsp.fsp_nbulk → fsp.fsp_nbulk - bi + 1 < fuel →
      (planFrom fsp fuel 0 di bi).length = fsp.fsp_nbulk - bi + 1 := by
  intro fuel
  induction fuel with
  | zero => intro di bi h hf; omega
  | succ f ih =>
    intro di bi h hf
    rw [planFrom_cons fsp f 0 di bi ht, List.length_cons]
    by_cases hbi : bi < fsp.fsp_nbulk
    · have hE : expectedSz fsp 0 bi = 0 := by
        unfold expectedSz nominalSz MIN
        rw [if_pos hbi, hb]
        split <;> omega
      rw [hE, Nat.add_zero]
      rw [ih ((di + 1) % fsp.fsp_nsubdirs) (bi + 1) (by omega) (by omega)]
      omega
    · have hE : expectedSz fsp 0 bi = fsp.fsp_totsize := by
        unfold expectedSz nominalSz MIN
        rw [if_neg hbi, Nat.sub_zero]
        split <;> omega
      rw [hE]
      obtain ⟨f', rfl⟩ : ∃ f', f = f' + 1 := ⟨f - 1, by omega⟩
      rw [planFrom_exit fsp f' (0 + fsp.fsp_totsize) _ _ (by omega)]
      simp only [List.length_nil]
      omega

/-- With a zero bulk size, every bulk-slot entry of the plan has expected
size 0. -/
theorem planFrom_bulkzero_psz_zero (fsp : fspopulate_t) (hb : fsp.fsp_bulksize = 0)
    (_ht : 0 < fsp.fsp_totsize) (fuel di : Nat) :
    ∀ j p, j < fsp.fsp_nbulk → (planFrom fsp fuel 0 di 0)[j]? = some p →
      p.psz = 0 := by
  intro j
  induction j using Nat.strong_induction_on with
  | _ j ihs =>
    intro p hj hp
    have hsum : (((planFrom fsp fuel 0 di 0).take j).map PlanEnt.psz).sum = 0 := by
      apply List.sum_eq_zero
      intro x hx
      obtain ⟨q, hq, rfl⟩ := List.mem_map.mp hx
      obtain ⟨i, hi⟩ := List.mem_iff_getElem?.mp hq
      rw [List.getElem?_take] at hi
      by_cases hij : i < j
      · rw [if_pos hij] at hi
        exact ihs i hij q (by omega) hi
      · rw [if_neg hij] at hi
        cases hi
    have hpsz := planFrom_psz fsp fuel 0 di 0 j p hp
    rw [hsum] at hpsz
    rw [hpsz]
    unfold expectedSz nominalSz MIN
    rw [if_pos (by omega : 0 + j < fsp.fsp_nbulk), hb]
    split <;> omega

/-- With a zero bulk size and a total of at most one standard file, the
single standard-slot entry of the plan carries the whole total. -/
theorem planFrom_bulkzero_psz_last (fsp : fspopulate_t) (hb : fsp.fsp_bulksize = 0)
    (ht : 0 < fsp.fsp_totsize) (hstd : fsp.fsp_totsize ≤ 10 * 1024 * 1024)
    (fuel di : Nat) :
    ∀ p, (planFrom fsp fuel 0 di 0)[fsp.fsp_nbulk]? = some p →
      p.psz = fsp.fsp_totsize := by
  intro p hp
  have hsum : (((planFrom fsp fuel 0 di 0).take fsp.fsp_nbulk).map PlanEnt.psz).sum = 0 := by
    apply List.sum_eq_zero
    intro x hx
    obtain ⟨q, hq, rfl⟩ := List.mem_map.mp hx
    obtain ⟨i, hi⟩ := List.mem_iff_getElem?.mp hq
    rw [List.getElem?_take] at hi
    by_cases hij : i < fsp.fsp_nbulk
    · rw [if_pos hij] at hi
      exact planFrom_bulkzero_psz_zero fsp hb ht fuel di i q hij hi
    · rw [if_neg hij] at hi
      cases hi
  have hpsz := planFrom_psz fsp fuel 0 di 0 fsp.fsp_nbulk p hp
  rw [hsum] at hpsz
  rw [hpsz]
  unfold expectedSz nominalSz MIN
  rw [if_neg (by omega : ¬ 0 + fsp.fsp_nbulk < fsp.fsp_nbulk)]
  split <;> omega

/-- Claim C10: with the default policy and `0 < total < 1024`, the bulk
size `total / 1024` floors to 0, so the run creates the 768 bulk-slot
files as empty files and all 256 subdirectories, then a single
standard-slot file (index 768) of exactly `total` bytes, and exits
successfully with the sizes summing to the total. -/
theorem claim_C10 (buf : Nat → Nat) (t : Nat) (path : String)
    (h1 : 0 < t) (h2 : t < 1024) :
    (fspopulate buf sysOK (mainConfig t path) FS.empty).1 = RunRes.ok ∧
    (fspopulate buf sysOK (mainConfig t path) FS.empty).2.2.2 = t ∧
    (fspopulate buf sysOK (mainConfig t path) FS.empty).2.1.files.length = 769 ∧
    (∀ e ∈ (fspopulate buf sysOK (mainConfig t path) FS.empty).2.1.files,
      (e.2.1 < 768 → e.2.2 = []) ∧ (e.2.1 = 768 → e.2.2.length = t)) ∧
    (∀ d, d ∈ (fspopulate buf sysOK (mainConfig t path) FS.empty).2.1.dirs ↔
      d < 256) ∧
    ((fspopulate buf sysOK (mainConfig t path) FS.empty).2.1.files.map
      (fun e => e.2.2.length)).sum = t := by
  have hdry : (mainConfig t path).fsp_dryrun = false := rfl
  have hb : (mainConfig t path).fsp_bulksize = 0 := Nat.div_eq_of_lt h2
  have ht : 0 < (mainConfig t path).fsp_totsize := h1
  have hstd : (mainConfig t path).fsp_totsize ≤ 10 * 1024 * 1024 := by
    show t ≤ 10 * 1024 * 1024
    omega
  have hnb : (mainConfig t path).fsp_nbulk = 768 := rfl
  have hns : (mainConfig t path).fsp_nsubdirs = 256 := rfl
  have hfuel : (mainConfig t path).fsp_nbulk - 0 + 1 < fspopulate_fuel (mainConfig t path) := by
    unfold fspopulate_fuel
    omega
  have hlen : (thePlan (mainConfig t path)).length = 769 := by
    unfold thePlan
    rw [planFrom_bulkzero_length (mainConfig t path) hb ht hstd
      (fspopulate_fuel (mainConfig t path)) 0 0 (by omega) hfuel]
    omega
  obtain ⟨hok, htw⟩ := fspopulate_go_sysOK_ok buf (mainConfig t path)
    (fspopulate_fuel (mainConfig t path)) FS.empty 0 0 0 (by omega)
    (fspopulate_fuel_adequate (mainConfig t path))
  have hfiles := fspopulate_files_sysOK buf (mainConfig t path) hdry
  refine ⟨?_, ?_, ?_, ?_, ?_, ?_⟩
  · rw [fspopulate_eq_go buf sysOK (mainConfig t path) FS.empty hdry]
    exact hok
  · rw [fspopulate_eq_go buf sysOK (mainConfig t path) FS.empty hdry]
    exact htw
  · rw [hfiles, List.length_map, List.length_reverse, hlen]
  · intro e he
    rw [hfiles] at he
    obtain ⟨p, hp, rfl⟩ := List.mem_map.mp he
    rw [List.mem_reverse] at hp
    obtain ⟨k, hk⟩ := List.mem_iff_getElem?.mp hp
    have hpbi : p.pbi = k := by
      have := planFrom_pbi (mainConfig t path) (fspopulate_fuel (mainConfig t path))
        0 0 0 k p hk
      omega
    constructor
    · intro hlt
      have hk768 : k < 768 := by
        have : (p.pdi, p.pbi, fillContent buf p.psz).2.1 = p.pbi := rfl
        omega
      have hz : p.psz = 0 := planFrom_bulkzero_psz_zero (mainConfig t path) hb ht
        (fspopulate_fuel (mainConfig t path)) 0 k p (by omega) hk
      show fillContent buf p.psz = []
      rw [hz]
      exact fillContent_zero buf
    · intro heq
      have hk768 : k = 768 := by
        have : (p.pdi, p.pbi, fillContent buf p.psz).2.1 = p.pbi := rfl
        omega
      subst hk768
      have hlast : p.psz = (mainConfig t path).fsp_totsize :=
        planFrom_bulkzero_psz_last (mainConfig t path) hb ht hstd
          (fspopulate_fuel (mainConfig t path)) 0 p (by rw [← hk]; rfl)
      show (fillContent buf p.psz).length = t
      rw [fillContent_length, hlast]
      rfl
  · intro d
    rw [fspopulate_eq_go buf sysOK (mainConfig t path) FS.empty hdry,
      fspopulate_go_sysOK_dirs buf (mainConfig t path)
        (fspopulate_fuel (mainConfig t path)) FS.empty 0 0 0 d]
    rw [show FS.empty.dirs = [] from rfl]
    simp only [List.not_mem_nil, false_or]
    constructor
    · rintro ⟨p, hp, hpmk, rfl⟩
      obtain ⟨k, hk⟩ := List.mem_iff_getElem?.mp hp
      have := planFrom_pmk (mainConfig t path) (fspopulate_fuel (mainConfig t path))
        0 0 0 k p hk
      rw [this] at hpmk
      have hklt : k < 256 := by
        have := of_decide_eq_true hpmk
        omega
      have hpdi := planFrom_pdi (mainConfig t path) (by omega)
        (fspopulate_fuel (mainConfig t path)) 0 0 0 k p (by omega) hk
      rw [hpdi]
      show (0 + k) % 256 < 256
      omega
    · intro hd
      have hdl : d < (thePlan (mainConfig t path)).length := by omega
      have hk : (thePlan (mainConfig t path))[d]? =
          some ((thePlan (mainConfig t path)).get ⟨d, hdl⟩) :=
        List.getElem?_eq_getElem hdl
      refine ⟨(thePlan (mainConfig t path)).get ⟨d, hdl⟩,
        List.mem_iff_getElem?.mpr ⟨d, hk⟩, ?_, ?_⟩
      · rw [planFrom_pmk (mainConfig t path) (fspopulate_fuel (mainConfig t path))
          0 0 0 d _ hk]
        apply decide_eq_true
        show 0 + d < 256
        omega
      · rw [planFrom_pdi (mainConfig t path) (by omega)
          (fspopulate_fuel (mainConfig t path)) 0 0 0 d _ (by omega) hk]
        show (0 + d) % 256 = d
        rw [Nat.zero_add, Nat.mod_eq_of_lt (by omega)]
  · exact fspopulate_sizes_sum_sysOK buf (mainConfig t path) hdry


/-! ## Failure behaviour -/

theorem openCreate_fst_after_mkdir (fsp : fspopulate_t) (fs : FS) (di bi : Nat) :
    ((if bi < fsp.fsp_nsubdirs then fs.mkdirp di else fs).openCreate di bi).1 =
      fs.curSize di bi := by
  split
  · rw [FS.openCreate_fst, FS.mkdirp_curSize]
  · rw [FS.openCreate_fst]

/-- A failing subdirectory `mkdirp` (any error other than the
already-exists case, which is modelled as success) stops the run with the
failure result and the tree untouched. -/
theorem fspopulate_iter_mkdirfail (buf : Nat → Nat) (sys : SysOracle)
    (fsp : fspopulate_t) (fs : FS) (tw di bi : Nat)
    (hbi : bi < fsp.fsp_nsubdirs) (hmk : sys.mkdir_ok bi = false) :
    fspopulate_iter buf sys fsp fs tw di bi =
      .stop .fail fs [.mkdirA (dirPath fsp.fsp_path di)] := by
  unfold fspopulate_iter
  rw [if_pos ⟨hbi, hmk⟩]

/-- A failing `open` stops the run with the failure result; the file is
not created. -/
theorem fspopulate_iter_openfail (buf : Nat → Nat) (sys : SysOracle)
    (fsp : fspopulate_t) (fs : FS) (tw di bi : Nat)
    (hnm : ¬ (bi < fsp.fsp_nsubdirs ∧ sys.mkdir_ok bi = false))
    (hop : sys.open_ok bi = false) :
    fspopulate_iter buf sys fsp fs tw di bi =
      .stop .fail (if bi < fsp.fsp_nsubdirs then fs.mkdirp di else fs)
        ((if bi < fsp.fsp_nsubdirs
            then [Event.mkdirA (dirPath fsp.fsp_path di)] else []) ++
          [.openF (filePath fsp.fsp_path di bi)]) := by
  unfold fspopulate_iter
  rw [if_neg hnm]
  simp [hop]

/-- A failing `fstat` stops the run with the failure result; the file has
been opened (created empty if absent). -/
theorem fspopulate_iter_fstatfail (buf : Nat → Nat) (sys : SysOracle)
    (fsp : fspopulate_t) (fs : FS) (tw di bi : Nat)
    (hnm : ¬ (bi < fsp.fsp_nsubdirs ∧ sys.mkdir_ok bi = false))
    (hop : sys.open_ok bi = true) (hft : sys.fstat_ok bi = false) :
    fspopulate_iter buf sys fsp fs tw di bi =
      .stop .fail
        (((if bi < fsp.fsp_nsubdirs then fs.mkdirp di else fs).openCreate di bi).2)
        ((if bi < fsp.fsp_nsubdirs
            then [Event.mkdirA (dirPath fsp.fsp_path di)] else []) ++
          [.openF (filePath fsp.fsp_path di bi)]) := by
  unfold fspopulate_iter
  rw [if_neg hnm]
  simp [hop, hft]

/-- When `mkdirp`, `open` and `fstat` succeed, the iteration's outcome is
decided by `populate_file`'s result: normal return continues the loop, a
write error stops with failure, the zero-write assertion aborts. -/
theorem fspopulate_iter_writes (buf : Nat → Nat) (sys : SysOracle)
    (fsp : fspopulate_t) (fs : FS) (tw di bi : Nat)
    (hnm : ¬ (bi < fsp.fsp_nsubdirs ∧ sys.mkdir_ok bi = false))
    (hop : sys.open_ok bi = true) (hft : sys.fstat_ok bi = true) :
    fspopulate_iter buf sys fsp fs tw di bi =
      (match (populate_file (sys.write_res bi) (shortfall fsp fs tw di bi)).1 with
        | PfRes.ok => IterOut.next (stepFSw buf sys fsp fs tw di bi)
            (stepEvsw sys fsp fs tw di bi) (tw + expectedSz fsp tw bi)
            ((di + 1) % fsp.fsp_nsubdirs) (bi + 1)
        | PfRes.werr => IterOut.stop .fail (stepFSw buf sys fsp fs tw di bi)
            (stepEvsw sys fsp fs tw di bi)
        | PfRes.wzero => IterOut.stop .aborted (stepFSw buf sys fsp fs tw di bi)
            (stepEvsw sys fsp fs tw di bi)) := by
  unfold fspopulate_iter
  rw [if_neg hnm]
  simp only [hop, hft, Bool.true_eq_false, if_false,
    openCreate_fst_after_mkdir fsp fs di bi]
  unfold stepFSw stepEvsw shortfall expectedSz nominalSz
  simp only [openCreate_fst_after_mkdir fsp fs di bi, List.append_assoc,
    List.singleton_append]

/-- A stopping iteration aborts the whole loop at once: the run returns
the iteration's result with the tree and trace as they stand and the
running total unchanged — no retry, regardless of remaining fuel. -/
theorem fspopulate_go_stop (buf : Nat → Nat) (sys : SysOracle) (fsp : fspopulate_t)
    (fuel : Nat) (fs : FS) (tw di bi : Nat) (r : RunRes) (fs' : FS) (evs : List Event)
    (hlt : tw < fsp.fsp_totsize)
    (hiter : fspopulate_iter buf sys fsp fs tw di bi = .stop r fs' evs) :
    fspopulate_go buf sys fsp (fuel + 1) fs tw di bi = (r, fs', evs, tw) := by
  unfold fspopulate_go
  rw [if_pos hlt, hiter]

/-- No iteration — stopping or not — ever touches a file other than the
one it handles: on any failure, previously completed files are intact. -/
theorem fspopulate_iter_frame (buf : Nat → Nat) (sys : SysOracle)
    (fsp : fspopulate_t) (fs : FS) (tw di bi d f : Nat)
    (hk : ¬ (d = di ∧ f = bi)) :
    (match fspopulate_iter buf sys fsp fs tw di bi with
      | .stop _ fs' _ => fs'
      | .next fs' _ _ _ _ => fs').lookup d f = fs.lookup d f := by
  have hmkl : (if bi < fsp.fsp_nsubdirs then fs.mkdirp di else fs).lookup d f =
      fs.lookup d f := by
    split
    · rw [FS.mkdirp_lookup]
    · rfl
  have hstepw : (stepFSw buf sys fsp fs tw di bi).lookup d f = fs.lookup d f := by
    unfold stepFSw
    rw [FS.appendBytes_lookup, if_neg hk, FS.openCreate_lookup_other _ _ _ _ _ hk,
      hmkl]
  by_cases hstop1 : bi < fsp.fsp_nsubdirs ∧ sys.mkdir_ok bi = false
  · rw [fspopulate_iter_mkdirfail buf sys fsp fs tw di bi hstop1.1 hstop1.2]
  · cases hop : sys.open_ok bi with
    | false =>
      rw [fspopulate_iter_openfail buf sys fsp fs tw di bi hstop1 hop]
      exact hmkl
    | true =>
      cases hft : sys.fstat_ok bi with
      | false =>
        rw [fspopulate_iter_fstatfail buf sys fsp fs tw di bi hstop1 hop hft]
        show ((if bi < fsp.fsp_nsubdirs then fs.mkdirp di else fs).openCreate
          di bi).2.lookup d f = fs.lookup d f
        rw [FS.openCreate_lookup_other _ _ _ _ _ hk]
        exact hmkl
      | true =>
        rw [fspopulate_iter_writes buf sys fsp fs tw di bi hstop1 hop hft]
        cases hpf : (populate_file (sys.write_res bi) (shortfall fsp fs tw di bi)).1 <;>
          exact hstepw

/-- Claim C8: any failure — directory creation (other than
already-exists, which is modelled as success here), `open`, `fstat`, a
`write` error, or a zero-byte `write` result — stops the run at the
failing call with no internal retry, leaving the tree in its partial
state with every other file untouched; `main` maps a failed run to exit
code 1, while the zero-byte write trips the assertion and aborts without
returning. -/
theorem claim_C8 (buf : Nat → Nat) (sys : SysOracle) (fsp : fspopulate_t)
    (fs : FS) (tw di bi fuel : Nat) :
    (∀ r fs' evs, tw < fsp.fsp_totsize →
      fspopulate_iter buf sys fsp fs tw di bi = .stop r fs' evs →
      fspopulate_go buf sys fsp (fuel + 1) fs tw di bi = (r, fs', evs, tw)) ∧
    (bi < fsp.fsp_nsubdirs → sys.mkdir_ok bi = false →
      fspopulate_iter buf sys fsp fs tw di bi =
        .stop .fail fs [.mkdirA (dirPath fsp.fsp_path di)]) ∧
    (sys.mkdir_ok bi = true → sys.open_ok bi = false →
      fspopulate_iter buf sys fsp fs tw di bi =
        .stop .fail (if bi < fsp.fsp_nsubdirs then fs.mkdirp di else fs)
          ((if bi < fsp.fsp_nsubdirs
              then [Event.mkdirA (dirPath fsp.fsp_path di)] else []) ++
            [.openF (filePath fsp.fsp_path di bi)])) ∧
    (sys.mkdir_ok bi = true → sys.open_ok bi = true → sys.fstat_ok bi = false →
      ∃ fs' evs, fspopulate_iter buf sys fsp fs tw di bi = .stop .fail fs' evs) ∧
    (∀ w : Nat → Nat → Option Nat, ∀ n : Int, 0 < n →
      (w 0 (MINI n (fsp_bufsz : Int)).toNat = none →
        populate_file w n = (.werr, [])) ∧
      (w 0 (MINI n (fsp_bufsz : Int)).toNat = some 0 →
        populate_file w n = (.wzero, []))) ∧
    (sys.mkdir_ok bi = true → sys.open_ok bi = true → sys.fstat_ok bi = true →
      ((populate_file (sys.write_res bi) (shortfall fsp fs tw di bi)).1 = .werr →
        fspopulate_iter buf sys fsp fs tw di bi =
          .stop .fail (stepFSw buf sys fsp fs tw di bi)
            (stepEvsw sys fsp fs tw di bi)) ∧
      ((populate_file (sys.write_res bi) (shortfall fsp fs tw di bi)).1 = .wzero →
        fspopulate_iter buf sys fsp fs tw di bi =
          .stop .aborted (stepFSw buf sys fsp fs tw di bi)
            (stepEvsw sys fsp fs tw di bi))) ∧
    (∀ r fs' evs, fspopulate_iter buf sys fsp fs tw di bi = .stop r fs' evs →
      ∀ d f, ¬ (d = di ∧ f = bi) → fs'.lookup d f = fs.lookup d f) ∧
    (mainExit RunRes.fail = some 1 ∧ mainExit RunRes.ok = some 0 ∧
      mainExit RunRes.aborted = none) := by
  refine ⟨?_, ?_, ?_, ?_, ?_, ?_, ?_, rfl, rfl, rfl⟩
  · intro r fs' evs hlt hiter
    exact fspopulate_go_stop buf sys fsp fuel fs tw di bi r fs' evs hlt hiter
  · intro hbi hmk
    exact fspopulate_iter_mkdirfail buf sys fsp fs tw di bi hbi hmk
  · intro hmk hop
    exact fspopulate_iter_openfail buf sys fsp fs tw di bi (by rw [hmk]; simp) hop
  · intro hmk hop hft
    exact ⟨_, _, fspopulate_iter_fstatfail buf sys fsp fs tw di bi
      (by rw [hmk]; simp) hop hft⟩
  · intro w n hn
    constructor
    · intro hw
      unfold populate_file populate_file_go
      rw [if_pos (by omega : (0 : Int) < n)]
      rw [show n - 0 = n from by omega, hw]
    · intro hw
      unfold populate_file populate_file_go
      rw [if_pos (by omega : (0 : Int) < n)]
      rw [show n - 0 = n from by omega, hw]
      simp
  · intro hmk hop hft
    have hiterw := fspopulate_iter_writes buf sys fsp fs tw di bi
      (by rw [hmk]; simp) hop hft
    constructor
    · intro hpf
      rw [hiterw, hpf]
    · intro hpf
      rw [hiterw, hpf]
  · intro r fs' evs hiter d f hk
    have := fspopulate_iter_frame buf sys fsp fs tw di bi d f hk
    rw [hiter] at this
    exact this

/-! ## Concrete witnesses -/

theorem claim_C1_witness :
    (mainConfig 3 "r").fsp_dryrun = false ∧
    (fspopulate fsp_buf sysOK (mainConfig 3 "r")
        ((fspopulate fsp_buf sysOK (mainConfig 3 "r") FS.empty).2.1)).2.1 =
      (fspopulate fsp_buf sysOK (mainConfig 3 "r") FS.empty).2.1 :=
  ⟨rfl, (claim_C1 fsp_buf (mainConfig 3 "r") FS.empty rfl).2.1⟩

theorem claim_C2_witness :
    (mainConfig 5 "r").fsp_dryrun = false ∧
    ((fspopulate fsp_buf sysOK (mainConfig 5 "r") FS.empty).2.1.files.map
      (fun e => e.2.2.length)).sum = (mainConfig 5 "r").fsp_totsize :=
  ⟨rfl, (claim_C2 fsp_buf (mainConfig 5 "r") rfl).2.2.2⟩

theorem claim_C3_witness :
    ((mainConfig 2048 "r").fsp_bulksize = (mainConfig 2048 "r").fsp_totsize / 1024) ∧
    ((thePlan (mainConfig 2048 "r"))[0]? = some ⟨true, 0, 0, 2⟩) ∧
    (⟨true, 0, 0, 2⟩ : PlanEnt).pbi = 0 :=
  ⟨rfl, by decide,
    ((claim_C3 (mainConfig 2048 "r") rfl).1 0 ⟨true, 0, 0, 2⟩ (by decide)).1⟩

theorem claim_C4_witness :
    (fsp_buf = fsp_buf) ∧ (fsp_buf = fsp_buf) ∧
    fspopulate fsp_buf sysOK (mainConfig 7 "r") FS.empty =
      fspopulate fsp_buf sysOK (mainConfig 7 "r") FS.empty :=
  ⟨rfl, rfl, (claim_C4 (mainConfig 7 "r") fsp_buf fsp_buf rfl rfl).1⟩

theorem claim_C5_witness :
    (FS.lookup ⟨[0], [(0, 0, [1, 2, 3])]⟩ 0 0 = some [1, 2, 3]) ∧
    (expectedSz (mainConfig 2 "r") 0 0 ≤ ([1, 2, 3] : List Nat).length) ∧
    (0 < (mainConfig 2 "r").fsp_nsubdirs → 0 ∈ (⟨[0], [(0, 0, [1, 2, 3])]⟩ : FS).dirs) ∧
    stepFS fsp_buf (mainConfig 2 "r") ⟨[0], [(0, 0, [1, 2, 3])]⟩ 0 0 0 =
      ⟨[0], [(0, 0, [1, 2, 3])]⟩ :=
  ⟨by decide, by decide, by decide,
    (claim_C5 fsp_buf (mainConfig 2 "r") ⟨[0], [(0, 0, [1, 2, 3])]⟩ 0 0 0).2.2.2.2.2
      [1, 2, 3] (by decide) (by decide) (by decide)⟩

theorem claim_C6_witness :
    (3 ∈ (⟨[3], []⟩ : FS).dirs) ∧
    FS.mkdirp ⟨[3], []⟩ 3 = ⟨[3], []⟩ ∧
    ((stepEvs (mainConfig 5 "r") FS.empty 0 0 0).countP Event.isMkdir =
      if 0 < (mainConfig 5 "r").fsp_nsubdirs then 1 else 0) :=
  ⟨by decide,
    (claim_C6 fsp_buf (mainConfig 5 "r") ⟨[3], []⟩ 0 3 0).2.2.1 (by decide),
    (claim_C6 fsp_buf (mainConfig 5 "r") FS.empty 0 0 0).2.1⟩

theorem claim_C7_witness :
    ((mainConfig 2048 "r").fsp_dryrun = false) ∧
    (0 < (mainConfig 2048 "r").fsp_nsubdirs) ∧
    ((thePlan (mainConfig 2048 "r"))[0]? = some ⟨true, 0, 0, 2⟩) ∧
    ((⟨true, 0, 0, 2⟩ : PlanEnt).pbi = 0 ∧
      (⟨true, 0, 0, 2⟩ : PlanEnt).pdi = 0 % (mainConfig 2048 "r").fsp_nsubdirs ∧
      ((fspopulate fsp_buf sysOK (mainConfig 2048 "r") FS.empty).2.2.1.filterMap
          Event.openPath)[0]? =
        some (filePath (mainConfig 2048 "r").fsp_path
          (0 % (mainConfig 2048 "r").fsp_nsubdirs) 0)) :=
  ⟨rfl, by decide, by decide,
    (claim_C7 fsp_buf (mainConfig 2048 "r") rfl (by decide)).1 0 ⟨true, 0, 0, 2⟩
      (by decide)⟩

theorem claim_C8_witness :
    (0 < (mainConfig 5 "r").fsp_nsubdirs) ∧
    ((⟨fun _ => false, fun _ => true, fun _ => true, fun _ _ n => some n⟩ :
      SysOracle).mkdir_ok 0 = false) ∧
    fspopulate_iter fsp_buf
        ⟨fun _ => false, fun _ => true, fun _ => true, fun _ _ n => some n⟩
        (mainConfig 5 "r") FS.empty 0 0 0 =
      .stop .fail FS.empty [.mkdirA (dirPath (mainConfig 5 "r").fsp_path 0)] :=
  ⟨by decide, rfl,
    (claim_C8 fsp_buf
      ⟨fun _ => false, fun _ => true, fun _ => true, fun _ _ n => some n⟩
      (mainConfig 5 "r") FS.empty 0 0 0 0).2.1 (by decide) rfl⟩

theorem claim_C9_witness :
    ((mainConfig 0 "r").fsp_dryrun = false) ∧
    ((mainConfig 0 "r").fsp_totsize = 0) ∧
    fspopulate fsp_buf sysOK (mainConfig 0 "r") FS.empty =
      (RunRes.ok, FS.empty, [], 0) :=
  ⟨rfl, rfl, ((claim_C9 fsp_buf (mainConfig 0 "r") FS.empty rfl).2 rfl).1⟩

theorem claim_C10_witness :
    (0 < 5) ∧ (5 < 1024) ∧
    (fspopulate fsp_buf sysOK (mainConfig 5 "r") FS.empty).2.1.files.length = 769 :=
  ⟨by decide, by decide, (claim_C10 fsp_buf 5 "r" (by decide) (by decide)).2.2.1⟩

end FsPop
